import Mathlib

/-!
# Attendance service: embedding and verified properties

Shallow embedding of `main.go`: the PKCS#7 / CBC / base64 credential codec, the
threshold projector (`calculateSkippableHours`, `calculateRequiredHours`), the
per-row scraping step and the result assembly of `FetchAttendanceAPI`.

Go's `float64` is modelled bit-exactly as IEEE 754 binary64 with
round-to-nearest-even (`F64`), Go's `int` as the 64-bit two's complement
integers (`wrapInt` applied at every increment).
-/

set_option maxRecDepth 100000

/-! ## IEEE 754 binary64 -/

/-- An IEEE 754 binary64 value: a finite number `(-1)^neg * m * 2^e` (signed
zeros included: `m = 0`), an infinity, or a NaN. -/
inductive F64 where
  | fin (neg : Bool) (m : Nat) (e : Int)
  | inf (neg : Bool)
  | nan
  deriving DecidableEq, Repr

namespace F64

/-- Floor of the binary logarithm, by repeated halving (`fuel` halvings). -/
def log2Fuel : Nat → Nat → Nat
  | 0, _ => 0
  | f + 1, n => if n < 2 then 0 else log2Fuel f (n / 2) + 1

/-- Floor of the binary logarithm of a natural number (`0` at `0`). -/
def log2 (n : Nat) : Nat := log2Fuel n n

/-- Numerator of `n/d * 2^k` as a fraction of naturals. -/
def scaleNum (n : Nat) (k : Int) : Nat := n * 2 ^ k.toNat

/-- Denominator of `n/d * 2^k` as a fraction of naturals. -/
def scaleDen (d : Nat) (k : Int) : Nat := d * 2 ^ (-k).toNat

/-- Nearest integer to `N/D`, ties to even. -/
def rne (N D : Nat) : Nat :=
  let q := N / D
  let r := N % D
  if 2 * r < D then q else if D < 2 * r then q + 1 else if q % 2 = 0 then q else q + 1

/-- Floor of the binary logarithm of the positive rational `n/d * 2^s`. -/
def floorLog2 (n d : Nat) (s : Int) : Int :=
  let l : Int := (log2 n : Int) - (log2 d : Int) + s
  if scaleDen d (s - l) ≤ scaleNum n (s - l) then l else l - 1

/-- The binary64 value nearest to `(-1)^neg * n/d * 2^s` (`d ≠ 0`), ties to
even: 53 significant bits, least exponent `-1074` (gradual underflow), overflow
to infinity. -/
def round (neg : Bool) (n d : Nat) (s : Int) : F64 :=
  if n = 0 then fin neg 0 (-1074) else
  let e := max (floorLog2 n d s - 52) (-1074)
  let q := rne (scaleNum n (s - e)) (scaleDen d (s - e))
  let e1 := if q = 2 ^ 53 then e + 1 else e
  let m1 := if q = 2 ^ 53 then 2 ^ 52 else q
  if 971 < e1 then inf neg else fin neg m1 e1

/-- Conversion `float64(i)` of an integer. -/
def ofInt (i : Int) : F64 := round (decide (i < 0)) i.natAbs 1 0

/-- IEEE division `x / y`. -/
def div : F64 → F64 → F64
  | nan, _ => nan
  | _, nan => nan
  | inf _, inf _ => nan
  | inf a, fin b _ _ => inf (xor a b)
  | fin a _ _, inf b => fin (xor a b) 0 (-1074)
  | fin a m e, fin b m' e' =>
    if m' = 0 then (if m = 0 then nan else inf (xor a b)) else round (xor a b) m m' (e - e')

/-- IEEE multiplication `x * y`. -/
def mul : F64 → F64 → F64
  | nan, _ => nan
  | _, nan => nan
  | inf a, inf b => inf (xor a b)
  | inf a, fin b m _ => if m = 0 then nan else inf (xor a b)
  | fin a m _, inf b => if m = 0 then nan else inf (xor a b)
  | fin a m e, fin b m' e' => round (xor a b) (m * m') 1 (e + e')

/-- Signed significand. -/
def sval (neg : Bool) (m : Nat) : Int := if neg then -(m : Int) else m

/-- IEEE comparison `x <= y` (false when either side is a NaN). -/
def le : F64 → F64 → Bool
  | nan, _ => false
  | _, nan => false
  | inf a, inf b => a || !b
  | inf a, fin _ _ _ => a
  | fin _ _ _, inf b => !b
  | fin a m e, fin b m' e' =>
    decide (sval a m * 2 ^ (e - min e e').toNat ≤ sval b m' * 2 ^ (e' - min e e').toNat)

/-- IEEE comparison `x < y`. -/
def lt (x y : F64) : Bool := le x y && !le y x

/-- IEEE comparison `x >= y`. -/
def ge (x y : F64) : Bool := le y x

/-- The rational value of a finite binary64 (`0` for infinities and NaN). -/
def toRat : F64 → ℚ
  | fin neg m e => (sval neg m : ℚ) * (2 : ℚ) ^ e
  | _ => 0

/-! ### Specification predicates for rounding -/

/-- Magnitudes of finite binary64 values (up to the overflow threshold). -/
def Rep (y : ℚ) : Prop := ∃ (m : ℕ) (e : ℤ), m < 2 ^ 53 ∧ -1074 ≤ e ∧ y = (m : ℚ) * (2 : ℚ) ^ e

/-- The magnitude `v` is at least as close to `x` as every representable magnitude. -/
def Nearest (x v : ℚ) : Prop := ∀ y, Rep y → |v - x| ≤ |y - x|

/-- The value `f` is finite with sign `neg` and magnitude `v`. -/
def IsVal (f : F64) (neg : Bool) (v : ℚ) : Prop :=
  ∃ (m : ℕ) (e : ℤ), f = fin neg m e ∧ (m : ℚ) * (2 : ℚ) ^ e = v ∧ m < 2 ^ 53 ∧ -1074 ≤ e

end F64

/-! ## AttendanceProjector -/

/-- Go's `int` on 64-bit targets: the two's complement wrap of an integer. -/
def wrapInt (x : Int) : Int := (x + 2 ^ 63) % 2 ^ 64 - 2 ^ 63

/-- Values of Go's `int`. -/
def IsInt (x : Int) : Prop := -2 ^ 63 ≤ x ∧ x < 2 ^ 63

instance (x : Int) : Decidable (IsInt x) := by unfold IsInt; infer_instance

/-- The expression `float64(present)/float64(total)*100`. -/
def percentage (present total : Int) : F64 :=
  F64.mul (F64.div (F64.ofInt present) (F64.ofInt total)) (F64.ofInt 100)

/-- The test `float64(present)/float64(total)*100 >= 75`. -/
def pctGe75 (present total : Int) : Bool := F64.ge (percentage present total) (F64.ofInt 75)

/-- The test `float64(present)/float64(total)*100 < 75`. -/
def pctLt75 (present total : Int) : Bool := F64.lt (percentage present total) (F64.ofInt 75)

/-- Iterations granted to each `for` loop; `none` is returned when they run out. -/
def loopFuel : Nat := 2 ^ 64

/-- The `for` loop of `calculateSkippableHours`, from the state
`(tempPresent, tempTotal, skippable)`. -/
def skippableLoop : Nat → Int → Int → Int → Option Int
  | 0, _, _, _ => none
  | fuel + 1, tempPresent, tempTotal, skippable =>
    if pctGe75 tempPresent (wrapInt (tempTotal + 1)) then
      skippableLoop fuel tempPresent (wrapInt (tempTotal + 1)) (wrapInt (skippable + 1))
    else some skippable

/-- Model of `calculateSkippableHours(present, total)`. -/
def calculateSkippableHours (present total : Int) : Option Int :=
  if total = 0 then some 0
  else if pctLt75 present total then some 0
  else skippableLoop loopFuel present total 0

/-- The `for` loop of `calculateRequiredHours`, from the state
`(tempPresent, tempTotal, required)`. -/
def requiredLoop : Nat → Int → Int → Int → Option Int
  | 0, _, _, _ => none
  | fuel + 1, tempPresent, tempTotal, required =>
    if pctGe75 (wrapInt (tempPresent + 1)) (wrapInt (tempTotal + 1)) then
      some (wrapInt (required + 1))
    else requiredLoop fuel (wrapInt (tempPresent + 1)) (wrapInt (tempTotal + 1))
      (wrapInt (required + 1))

/-- Model of `calculateRequiredHours(present, total)`. -/
def calculateRequiredHours (present total : Int) : Option Int :=
  if total = 0 then some 0
  else if pctGe75 present total then some 0
  else requiredLoop loopFuel present total 0

/-- The `overallPercentage` computed by `FetchAttendanceAPI`. -/
def overallPercentage (totalPresent totalClasses : Int) : F64 :=
  if 0 < totalClasses then percentage totalPresent totalClasses else F64.fin false 0 (-1074)

/-! ## CryptoCodec -/

/-- Go's `byte`. -/
abbrev Byte := Fin 256

/-- The conversion `byte(i)` of an `int`: the low eight bits. -/
def byteOfInt (i : Int) : Byte := Fin.ofNat (i % 256).toNat

/-- Model of `pkcs7Pad(data, blockSize)`; `none` is a run-time panic (integer division by zero,
or `bytes.Repeat` with a negative count). -/
def pkcs7Pad (data : List Byte) (blockSize : Int) : Option (List Byte) :=
  if blockSize = 0 then none
  else
    let padLen : Int := wrapInt (blockSize - Int.tmod (data.length : Int) blockSize)
    if padLen < 0 then none
    else some (data ++ List.replicate padLen.toNat (byteOfInt padLen))

/-- Outcome of a Go call returning `(value, error)`: a value, an error with its text, or
a run-time panic. -/
inductive Outcome (α : Type) where
  | value (v : α)
  | error (msg : String)
  | panic
  deriving DecidableEq, Repr

/-- The bytes of an ASCII string literal. -/
def asciiBytes (s : String) : List Byte := s.toList.map (fun c => Fin.ofNat c.toNat)

/-- The fixed key of `encryptPasswordAES`, also used as the initialisation vector. -/
def aesKey : List Byte := asciiBytes "8701661282118308"

/-- Bytewise exclusive or (`subtle.XORBytes`). -/
def xorBytes (a b : List Byte) : List Byte := List.zipWith (fun x y => x ^^^ y) a b

/-- The block loop of `CryptBlocks` of a CBC encrypter over `n` blocks of 16 bytes:
each plaintext block is xored with the previous ciphertext block and encrypted. -/
def cryptBlocksEnc (enc : List Byte → List Byte) : Nat → List Byte → List Byte → List Byte
  | 0, _, _ => []
  | n + 1, prev, src =>
    let c := enc (xorBytes (src.take 16) prev)
    c ++ cryptBlocksEnc enc n c (src.drop 16)

/-- The calls `cipher.NewCBCEncrypter(block, iv)` and `CryptBlocks(dst, src)` with
`len(dst) = len(src)`; `none` is a panic (IV length differs from the block size, or the
input is not a whole number of blocks). -/
def cbcEncrypt (enc : List Byte → List Byte) (iv src : List Byte) : Option (List Byte) :=
  if iv.length ≠ 16 then none
  else if src.length % 16 ≠ 0 then none
  else some (cryptBlocksEnc enc (src.length / 16) iv src)

/-- The alphabet of `base64.StdEncoding`. -/
def b64Alphabet : List Char :=
  "ABCDEFGHIJKLMNOPQRSTUVWXYZabcdefghijklmnopqrstuvwxyz0123456789+/".toList

/-- The character of a six-bit value. -/
def b64Char (n : Nat) : Char := b64Alphabet.getD n 'A'

/-- The characters of `base64.StdEncoding.EncodeToString`: three bytes give four
characters, a final group of one or two bytes is padded with `=`. -/
def b64EncodeList : List Byte → List Char
  | [] => []
  | [a] => [b64Char (a.val / 4), b64Char (a.val % 4 * 16), '=', '=']
  | [a, b] =>
    [b64Char (a.val / 4), b64Char (a.val % 4 * 16 + b.val / 16), b64Char (b.val % 16 * 4), '=']
  | a :: b :: c :: rest =>
    b64Char (a.val / 4) :: b64Char (a.val % 4 * 16 + b.val / 16) ::
      b64Char (b.val % 16 * 4 + c.val / 64) :: b64Char (c.val % 64) :: b64EncodeList rest

/-- Model of `base64.StdEncoding.EncodeToString`. -/
def base64Encode (data : List Byte) : String := String.mk (b64EncodeList data)

/-- Model of `encryptPasswordAES(plainText)`, the block cipher `aes key` being a parameter
(`aes.NewCipher` fails unless the key has 16, 24 or 32 bytes). -/
def encryptPasswordAES (aes : List Byte → List Byte → List Byte) (plainText : List Byte) :
    Outcome String :=
  let key := aesKey
  let iv := aesKey
  match pkcs7Pad plainText 16 with
  | none => Outcome.panic
  | some plaintextBytes =>
    if key.length ≠ 16 ∧ key.length ≠ 24 ∧ key.length ≠ 32 then
      Outcome.error ("crypto/aes: invalid key size " ++ toString key.length)
    else
      match cbcEncrypt (aes key) iv plaintextBytes with
      | none => Outcome.panic
      | some cipherText => Outcome.value (base64Encode cipherText)

/-! ### The decoding side of the round trip (specification) -/

/-- The six-bit value of a base64 character (`64` for a character outside the alphabet). -/
def b64Val (c : Char) : Nat := b64Alphabet.indexOf c

/-- Standard base64 decoding with `=` padding, on characters. -/
def b64DecodeList : List Char → Option (List Byte)
  | [] => some []
  | [_] => none
  | [_, _] => none
  | [_, _, _] => none
  | c0 :: c1 :: c2 :: c3 :: rest =>
    let v0 := b64Val c0
    let v1 := b64Val c1
    if 64 ≤ v0 ∨ 64 ≤ v1 then none
    else if c3 = '=' then
      if rest ≠ [] then none
      else if c2 = '=' then some [Fin.ofNat (v0 * 4 + v1 / 16)]
      else
        let v2 := b64Val c2
        if 64 ≤ v2 then none
        else some [Fin.ofNat (v0 * 4 + v1 / 16), Fin.ofNat (v1 % 16 * 16 + v2 / 4)]
    else
      let v2 := b64Val c2
      let v3 := b64Val c3
      if 64 ≤ v2 ∨ 64 ≤ v3 then none
      else
        match b64DecodeList rest with
        | none => none
        | some tail =>
          some (Fin.ofNat (v0 * 4 + v1 / 16) :: Fin.ofNat (v1 % 16 * 16 + v2 / 4) ::
            Fin.ofNat (v2 % 4 * 64 + v3) :: tail)

/-- Standard base64 decoding. -/
def base64Decode (s : String) : Option (List Byte) := b64DecodeList s.data

/-- CBC decryption over `n` blocks: each ciphertext block is decrypted and xored with the
previous ciphertext block. -/
def cryptBlocksDec (dec : List Byte → List Byte) : Nat → List Byte → List Byte → List Byte
  | 0, _, _ => []
  | n + 1, prev, src =>
    let c := src.take 16
    xorBytes (dec c) prev ++ cryptBlocksDec dec n c (src.drop 16)

/-- CBC decryption of a whole number of blocks. -/
def cbcDecrypt (dec : List Byte → List Byte) (iv src : List Byte) : Option (List Byte) :=
  if iv.length ≠ 16 then none
  else if src.length % 16 ≠ 0 then none
  else some (cryptBlocksDec dec (src.length / 16) iv src)

/-- Removal of PKCS#7 padding: the last byte `n` must be between 1 and the length, and the
last `n` bytes must all equal `n`. -/
def pkcs7Unpad (data : List Byte) : Option (List Byte) :=
  match data.getLast? with
  | none => none
  | some b =>
    if b.val = 0 ∨ data.length < b.val then none
    else if data.drop (data.length - b.val) = List.replicate b.val b then
      some (data.take (data.length - b.val))
    else none

/-- Decoding of a credential: base64, then CBC with the fixed key and IV, then unpadding. -/
def decryptPassword (aesInv : List Byte → List Byte → List Byte) (s : String) :
    Option (List Byte) :=
  match base64Decode s with
  | none => none
  | some cipherText =>
    match cbcDecrypt (aesInv aesKey) aesKey cipherText with
    | none => none
    | some padded => pkcs7Unpad padded

/-! ## ReportScraper -/

/-- Model of `unicode.IsSpace`. -/
def isSpace (c : Char) : Bool :=
  let n := c.toNat
  n = 9 || n = 10 || n = 11 || n = 12 || n = 13 || n = 32 || n = 0x85 || n = 0xA0 ||
    n = 0x1680 || (0x2000 ≤ n && n ≤ 0x200A) || n = 0x2028 || n = 0x2029 || n = 0x202F ||
    n = 0x205F || n = 0x3000

/-- Model of `strings.TrimSpace`. -/
def trimSpace (s : String) : String :=
  String.mk ((s.data.dropWhile isSpace).rdropWhile isSpace)

/-- The scan of `strings.Fields`: `cur` is the token being read. -/
def fieldsGo : List Char → List Char → List (List Char)
  | [], cur => if cur = [] then [] else [cur]
  | c :: cs, cur =>
    if isSpace c then (if cur = [] then fieldsGo cs [] else cur :: fieldsGo cs [])
    else fieldsGo cs (cur ++ [c])

/-- Model of `strings.Fields`: the maximal runs of non-space characters. -/
def fields (s : String) : List String := (fieldsGo s.data []).map String.mk

/-- Model of `strings.Contains(s, sub)`. -/
def contains (s sub : String) : Bool := decide (sub.data <:+: s.data)

/-- The verb `%-20s` and the like: padding on the right up to `n` characters. -/
def padRight (n : Nat) (s : String) : String := s ++ String.mk (List.replicate (n - s.length) ' ')

/-- The verb `%7s` and the like: padding on the left up to `n` characters. -/
def padLeft (n : Nat) (s : String) : String := String.mk (List.replicate (n - s.length) ' ') ++ s

/-- Model of `fmt.Sprintf("%-20s %7s %s", subject, attendance, percent)`. -/
def subjectLine (subject attendance percent : String) : String :=
  padRight 20 subject ++ " " ++ padLeft 7 attendance ++ " " ++ percent

/-- Model of `cells.Eq(i).Text()` on the texts of a selection: a negative index counts from the
end, an index out of range gives the empty selection, whose text is empty. -/
def cellText (cells : List String) (i : Int) : String :=
  let j : Int := if i < 0 then i + cells.length else i
  if j < 0 ∨ (cells.length : Int) ≤ j then "" else cells.getD j.toNat ""

/-- The search for today's column: the index of the first header containing `today`,
or `-1`. -/
def findTodayIndex (today : String) : List String → Int → Int
  | [], _ => -1
  | h :: hs, i => if contains h today then i else findTodayIndex today hs (i + 1)

/-- The accumulators of the row scan of `FetchAttendanceAPI`. -/
structure ScrapeState where
  totalPresent : Int
  totalClasses : Int
  todaysAttendance : List String
  subjectAttendance : List String
  deriving DecidableEq, Repr

/-- The tokens of today's cell that are `P` or `A`. -/
def todayStatuses (todayText : String) : List String :=
  (fields todayText).filter (fun s => s = "P" ∨ s = "A")

/-- The callback of `doc.Find("tr[title]").Each`, on the texts of the `td.cellBorder`
cells of one row. `sscanf` is `fmt.Sscanf(attendance, "%d/%d", &present, &total)`: it
gives the values of `present` and `total` after the call. -/
def processRow (sscanf : String → Int × Int) (todayIndex : Int) (st : ScrapeState)
    (cells : List String) : ScrapeState :=
  if cells.length < 2 then st
  else
    let subject := trimSpace (cellText cells 1)
    let attendance := trimSpace (cellText cells ((cells.length : Int) - 2))
    let percent := trimSpace (cellText cells ((cells.length : Int) - 1))
    let pt : Int × Int := if contains attendance "/" then sscanf attendance else (0, 0)
    let todays :=
      if todayIndex ≠ -1 ∧ todayIndex < (cells.length : Int) then
        let statuses := todayStatuses (trimSpace (cellText cells todayIndex))
        if 0 < statuses.length then
          st.todaysAttendance ++ [subject ++ ": " ++ " ".intercalate statuses]
        else st.todaysAttendance
      else st.todaysAttendance
    { totalPresent := wrapInt (st.totalPresent + pt.1)
      totalClasses := wrapInt (st.totalClasses + pt.2)
      todaysAttendance := todays
      subjectAttendance := st.subjectAttendance ++ [subjectLine subject attendance percent] }

/-- The row scan over all `tr[title]` rows, in document order. -/
def scrapeRows (sscanf : String → Int × Int) (todayIndex : Int) (st : ScrapeState)
    (rows : List (List String)) : ScrapeState :=
  rows.foldl (processRow sscanf todayIndex) st

/-- The lines of `subjectAttendance` of a list of rows: one per row with at least two
bordered cells, in order. -/
def subjectLines (rows : List (List String)) : List String :=
  (rows.filter (fun cells => 2 ≤ cells.length)).map (fun cells =>
    subjectLine (trimSpace (cellText cells 1))
      (trimSpace (cellText cells ((cells.length : Int) - 2)))
      (trimSpace (cellText cells ((cells.length : Int) - 1))))

/-! ## AttendanceService -/

/-- Model of `AttendanceResponse`. -/
structure AttendanceResponse where
  StudentID : String
  TotalPresent : Int
  TotalClasses : Int
  OverallPercentage : F64
  TodaysAttendance : List String
  SubjectAttendance : List String
  SkippableHours : Int
  RequiredHours : Int
  Error : String
  deriving DecidableEq, Repr

/-- The composite literal `AttendanceResponse{Error: msg}`: every other field has its
zero value. -/
def errorResponse (msg : String) : AttendanceResponse :=
  { StudentID := "", TotalPresent := 0, TotalClasses := 0,
    OverallPercentage := F64.fin false 0 (-1074), TodaysAttendance := [],
    SubjectAttendance := [], SkippableHours := 0, RequiredHours := 0, Error := msg }

/-- What the two attribute lookups of `extractHiddenFields` find in a parsed login page. -/
structure LoginDoc where
  viewState : Option String
  eventValidation : Option String

/-- What the selections of `FetchAttendanceAPI` find in the parsed report page: the texts
of the `td` of the heading rows, and for each `tr[title]` row the texts of its
`td.cellBorder` cells. -/
structure ReportDoc where
  headerCells : List String
  rows : List (List String)

/-- The outcomes of the network, parsing and clock calls of one invocation; a failed call
is given by the text of its error. -/
structure Env where
  /-- Outcome of `client.Get(loginURL)` followed by `io.ReadAll`. -/
  loginGet : Except String String
  /-- Outcome of `goquery.NewDocumentFromReader` on the login page. -/
  parseLogin : String → Except String LoginDoc
  /-- Outcome of `client.Do` of the login form, followed by `io.ReadAll`. -/
  loginPost : List (String × String) → Except String String
  /-- Outcome of `client.Get(attendanceURL)`, then `goquery.NewDocumentFromReader` on its body. -/
  reportGet : Except String (Except String ReportDoc)
  /-- Outcome of `getCurrentDate()`. -/
  today : String
  /-- Outcome of `fmt.Sscanf(attendance, "%d/%d", &present, &total)`. -/
  sscanf : String → Int × Int
  /-- The AES block cipher. -/
  aes : List Byte → List Byte → List Byte

/-- Model of `extractHiddenFields(body)`. -/
def extractHiddenFields (parse : String → Except String LoginDoc) (body : String) :
    Except String (String × String) :=
  match parse body with
  | Except.error err => Except.error err
  | Except.ok doc =>
    match doc.viewState, doc.eventValidation with
    | some viewState, some eventValidation => Except.ok (viewState, eventValidation)
    | _, _ => Except.error "missing viewstate or eventvalidation"

/-- Model of `FetchAttendanceAPI(username, password)`; `none` when the call does not return (a
panic, or a simulation that runs out of iterations). -/
def FetchAttendanceAPI (env : Env) (username : String) (password : List Byte) :
    Option AttendanceResponse :=
  match env.loginGet with
  | Except.error err => some (errorResponse ("failed to get login page: " ++ err))
  | Except.ok bodyBytes =>
    match extractHiddenFields env.parseLogin bodyBytes with
    | Except.error err => some (errorResponse err)
    | Except.ok (viewState, eventValidation) =>
      match encryptPasswordAES env.aes password with
      | Outcome.panic => none
      | Outcome.error err => some (errorResponse err)
      | Outcome.value encryptedPassword =>
        match env.loginPost [("__VIEWSTATE", viewState), ("__EVENTVALIDATION", eventValidation),
            ("txtId2", username), ("hdnpwd2", encryptedPassword), ("imgBtn2.x", "25"),
            ("imgBtn2.y", "10")] with
        | Except.error err => some (errorResponse err)
        | Except.ok loginBodyBytes =>
          if contains loginBodyBytes "Invalid Username" then some (errorResponse "Invalid login")
          else
            match env.reportGet with
            | Except.error err => some (errorResponse err)
            | Except.ok (Except.error err) => some (errorResponse err)
            | Except.ok (Except.ok doc) =>
              let headers := doc.headerCells.map trimSpace
              let todayIndex := findTodayIndex env.today headers 0
              let st := scrapeRows env.sscanf todayIndex
                { totalPresent := 0, totalClasses := 0, todaysAttendance := [],
                  subjectAttendance := [] } doc.rows
              match calculateSkippableHours st.totalPresent st.totalClasses,
                calculateRequiredHours st.totalPresent st.totalClasses with
              | some skippable, some required =>
                some { StudentID := username, TotalPresent := st.totalPresent,
                       TotalClasses := st.totalClasses,
                       OverallPercentage := overallPercentage st.totalPresent st.totalClasses,
                       TodaysAttendance := st.todaysAttendance,
                       SubjectAttendance := st.subjectAttendance,
                       SkippableHours := skippable, RequiredHours := required, Error := "" }
              | _, _ => none

/-- Every failed library call of the environment reports a non-empty error text. -/
def Env.ErrorsNonEmpty (env : Env) : Prop :=
  (∀ body err, env.parseLogin body = Except.error err → err ≠ "") ∧
  (∀ form err, env.loginPost form = Except.error err → err ≠ "") ∧
  (∀ err, env.reportGet = Except.error err → err ≠ "") ∧
  (∀ err, env.reportGet = Except.ok (Except.error err) → err ≠ "")

/-- An environment in which every call succeeds and the report has one data row. -/
def exampleEnv : Env :=
  { loginGet := Except.ok "<html>login</html>"
    parseLogin := fun _ => Except.ok { viewState := some "vs", eventValidation := some "ev" }
    loginPost := fun _ => Except.ok "<html>home</html>"
    reportGet := Except.ok (Except.ok
      { headerCells := ["Sl", "Subject", " 04/11 ", "Attendance", "%"]
        rows := [["1", " Maths ", " P A ", "3/4", "75.00"]] })
    today := "04/11"
    sscanf := fun _ => (3, 4)
    aes := fun _ block => block }

/-- The response of `FetchAttendanceAPI` in `exampleEnv`. -/
def exampleResponse : AttendanceResponse :=
  { StudentID := "21A", TotalPresent := 3, TotalClasses := 4,
    OverallPercentage := F64.ofInt 75, TodaysAttendance := ["Maths: P A"],
    SubjectAttendance := ["Maths                    3/4 75.00"],
    SkippableHours := 0, RequiredHours := 0, Error := "" }

/-! ## Theorems -/

/-! ### Rounding to binary64 -/

namespace F64

theorem log2Fuel_spec : ∀ (f n : Nat), n ≤ f → n ≠ 0 →
    2 ^ log2Fuel f n ≤ n ∧ n < 2 ^ (log2Fuel f n + 1) := by
  intro f
  induction f with
  | zero => intro n h1 h2; omega
  | succ f ih =>
    intro n h1 h2
    unfold log2Fuel
    by_cases h : n < 2
    · simp only [h, if_true]
      constructor <;> simp <;> omega
    · simp only [h, if_false]
      have h3 : n / 2 ≤ f := by omega
      have h4 : n / 2 ≠ 0 := by omega
      obtain ⟨a, b⟩ := ih (n / 2) h3 h4
      constructor
      · rw [pow_succ]; omega
      · rw [pow_succ]; omega

theorem log2_spec (n : Nat) (h : n ≠ 0) : 2 ^ log2 n ≤ n ∧ n < 2 ^ (log2 n + 1) :=
  log2Fuel_spec n n le_rfl h

theorem two_pow_toNat (k : Int) (h : 0 ≤ k) : ((2 ^ k.toNat : Nat) : ℚ) = (2 : ℚ) ^ k := by
  lift k to ℕ using h
  simp

theorem scale_spec (n d : Nat) (k : Int) :
    ((scaleNum n k : Nat) : ℚ) / ((scaleDen d k : Nat) : ℚ) = (n : ℚ) / d * (2 : ℚ) ^ k := by
  unfold scaleNum scaleDen
  rcases le_total 0 k with h | h
  · have h2 : (-k).toNat = 0 := by omega
    rw [h2]
    push_cast
    rw [← Nat.cast_ofNat, ← Nat.cast_pow, two_pow_toNat k h]
    simp
    ring
  · have h2 : k.toNat = 0 := by omega
    rw [h2]
    push_cast
    have h3 := two_pow_toNat (-k) (by omega)
    push_cast at h3
    rw [h3, zpow_neg]
    simp
    field_simp

theorem scaleDen_pos (d : Nat) (k : Int) (h : d ≠ 0) : 0 < scaleDen d k := by
  unfold scaleDen
  positivity

theorem scale_le_iff (n d : Nat) (k : Int) (hd : d ≠ 0) :
    scaleDen d k ≤ scaleNum n k ↔ (1 : ℚ) ≤ (n : ℚ) / d * (2 : ℚ) ^ k := by
  rw [← scale_spec]
  have h := scaleDen_pos d k hd
  have h' : (0 : ℚ) < (scaleDen d k : ℚ) := by exact_mod_cast h
  rw [le_div_iff₀ h', one_mul]
  exact_mod_cast Iff.rfl

theorem floorLog2_spec (n d : Nat) (s : Int) (hn : n ≠ 0) (hd : d ≠ 0) :
    (2 : ℚ) ^ floorLog2 n d s ≤ (n : ℚ) / d * (2 : ℚ) ^ s ∧
    (n : ℚ) / d * (2 : ℚ) ^ s < (2 : ℚ) ^ (floorLog2 n d s + 1) := by
  obtain ⟨a1, a2⟩ := log2_spec n hn
  obtain ⟨b1, b2⟩ := log2_spec d hd
  have a1' : (2 : ℚ) ^ (log2 n : ℤ) ≤ n := by exact_mod_cast a1
  have a2' : (n : ℚ) < (2 : ℚ) ^ ((log2 n : ℤ) + 1) := by exact_mod_cast a2
  have b1' : (2 : ℚ) ^ (log2 d : ℤ) ≤ d := by exact_mod_cast b1
  have b2' : (d : ℚ) < (2 : ℚ) ^ ((log2 d : ℤ) + 1) := by exact_mod_cast b2
  have hd0 : (0 : ℚ) < d := by exact_mod_cast Nat.pos_of_ne_zero hd
  have hn0 : (0 : ℚ) < n := by exact_mod_cast Nat.pos_of_ne_zero hn
  have h2 : ∀ k : ℤ, (0 : ℚ) < (2 : ℚ) ^ k := fun k => by positivity
  set x : ℚ := (n : ℚ) / d * (2 : ℚ) ^ s with hx
  set l : ℤ := (log2 n : ℤ) - (log2 d : ℤ) + s with hl
  -- x lies strictly between 2^(l-1) and 2^(l+1)
  have hlo : (2 : ℚ) ^ (l - 1) < x := by
    have e1 : (2 : ℚ) ^ (l - 1) = (2 : ℚ) ^ (log2 n : ℤ) / (2 : ℚ) ^ ((log2 d : ℤ) + 1) * 2 ^ s := by
      rw [← zpow_sub₀ (by norm_num), ← zpow_add₀ (by norm_num)]
      congr 1; omega
    rw [e1, hx]
    apply mul_lt_mul_of_pos_right _ (h2 s)
    rw [div_lt_div_iff₀ (h2 _) hd0]
    calc (2 : ℚ) ^ (log2 n : ℤ) * d < (2 : ℚ) ^ (log2 n : ℤ) * (2 : ℚ) ^ ((log2 d : ℤ) + 1) :=
          mul_lt_mul_of_pos_left b2' (h2 _)
      _ ≤ n * (2 : ℚ) ^ ((log2 d : ℤ) + 1) := mul_le_mul_of_nonneg_right a1' (h2 _).le
  have hhi : x < (2 : ℚ) ^ (l + 1) := by
    have e1 : (2 : ℚ) ^ (l + 1) = (2 : ℚ) ^ ((log2 n : ℤ) + 1) / (2 : ℚ) ^ (log2 d : ℤ) * 2 ^ s := by
      rw [← zpow_sub₀ (by norm_num), ← zpow_add₀ (by norm_num)]
      congr 1; omega
    rw [e1, hx]
    apply mul_lt_mul_of_pos_right _ (h2 s)
    rw [div_lt_div_iff₀ hd0 (h2 _)]
    calc (n : ℚ) * (2 : ℚ) ^ (log2 d : ℤ) < (2 : ℚ) ^ ((log2 n : ℤ) + 1) * (2 : ℚ) ^ (log2 d : ℤ) :=
          mul_lt_mul_of_pos_right a2' (h2 _)
      _ ≤ (2 : ℚ) ^ ((log2 n : ℤ) + 1) * d := mul_le_mul_of_nonneg_left b1' (h2 _).le
  have hcond : scaleDen d (s - l) ≤ scaleNum n (s - l) ↔ (2 : ℚ) ^ l ≤ x := by
    rw [scale_le_iff n d (s - l) hd, zpow_sub₀ (by norm_num), ← mul_div_assoc, le_div_iff₀ (h2 l),
      one_mul]
  unfold floorLog2
  simp only [← hl]
  by_cases hc : scaleDen d (s - l) ≤ scaleNum n (s - l)
  · simp only [hc, if_true]
    exact ⟨hcond.1 hc, hhi⟩
  · simp only [hc, if_false]
    refine ⟨hlo.le, ?_⟩
    have : x < (2 : ℚ) ^ l := lt_of_not_le (fun h => hc (hcond.2 h))
    simpa using this

theorem rne_spec (N D : Nat) (hD : 0 < D) : |((rne N D : Nat) : ℚ) - (N : ℚ) / D| ≤ 1 / 2 := by
  have hD' : (0 : ℚ) < D := by exact_mod_cast hD
  have hN : (N : ℚ) = (D : ℚ) * ((N / D : Nat) : ℚ) + ((N % D : Nat) : ℚ) := by
    exact_mod_cast (Nat.div_add_mod N D).symm
  have hr : N % D < D := Nat.mod_lt N hD
  have hr' : ((N % D : Nat) : ℚ) < D := by exact_mod_cast hr
  have hr0 : (0 : ℚ) ≤ ((N % D : Nat) : ℚ) := by positivity
  have hX : (N : ℚ) / D = ((N / D : Nat) : ℚ) + ((N % D : Nat) : ℚ) / D := by
    rw [hN]; field_simp; ring
  have key1 : 2 * (N % D) < D → ((N % D : Nat) : ℚ) / D ≤ 1 / 2 := by
    intro h
    have : (2 : ℚ) * ((N % D : Nat) : ℚ) < D := by exact_mod_cast h
    rw [div_le_iff₀ hD']; linarith
  have key2 : ¬ 2 * (N % D) < D → 1 / 2 ≤ ((N % D : Nat) : ℚ) / D := by
    intro h
    have : (D : ℚ) ≤ (2 : ℚ) * ((N % D : Nat) : ℚ) := by exact_mod_cast not_lt.1 h
    rw [le_div_iff₀ hD']; linarith
  have key3 : ¬ D < 2 * (N % D) → ((N % D : Nat) : ℚ) / D ≤ 1 / 2 := by
    intro h
    have : (2 : ℚ) * ((N % D : Nat) : ℚ) ≤ D := by exact_mod_cast not_lt.1 h
    rw [div_le_iff₀ hD']; linarith
  have hfrac0 : (0 : ℚ) ≤ ((N % D : Nat) : ℚ) / D := by positivity
  have hfrac1 : ((N % D : Nat) : ℚ) / D < 1 := by rw [div_lt_one hD']; exact hr'
  unfold rne
  simp only
  rw [hX, abs_le]
  split_ifs with h1 h2 h3
  · have := key1 h1
    constructor <;> linarith
  · have := key2 h1
    push_cast
    constructor <;> linarith
  · have := key3 h2
    constructor <;> linarith
  · have := key2 h1
    push_cast
    constructor <;> linarith

theorem nearest_int (q : ℤ) (X : ℚ) (h : |(q : ℚ) - X| ≤ 1 / 2) (z : ℤ) :
    |(q : ℚ) - X| ≤ |(z : ℚ) - X| := by
  by_cases hz : z = q
  · rw [hz]
  · have h1 : (1 : ℚ) ≤ |(z : ℚ) - q| := by
      have : (1 : ℤ) ≤ |z - q| := Int.one_le_abs (sub_ne_zero.2 hz)
      exact_mod_cast this
    have h2 : |(z : ℚ) - q| ≤ |(z : ℚ) - X| + |(q : ℚ) - X| := by
      have := abs_sub_le (z : ℚ) X q
      rwa [abs_sub_comm X q] at this
    linarith


theorem IsVal.rep {f : F64} {neg : Bool} {v : ℚ} (h : IsVal f neg v) : Rep v := by
  obtain ⟨m, e, _, h2, h3, h4⟩ := h
  exact ⟨m, e, h3, h4, h2.symm⟩

theorem IsVal.nonneg {f : F64} {neg : Bool} {v : ℚ} (h : IsVal f neg v) : 0 ≤ v := by
  obtain ⟨m, e, _, h2, h3, h4⟩ := h
  rw [← h2]; positivity

theorem zpow_le_of_lt_zpow {a b : ℤ} {x : ℚ} (h1 : (2 : ℚ) ^ a ≤ x) (h2 : x < (2 : ℚ) ^ b) :
    a < b := by
  by_contra h
  have : (2 : ℚ) ^ b ≤ (2 : ℚ) ^ a := zpow_le_zpow_right₀ (by norm_num) (not_lt.1 h)
  linarith

theorem round_isVal (neg : Bool) (n d : Nat) (s : Int) (hd : d ≠ 0)
    (hx : (n : ℚ) / d * (2 : ℚ) ^ s < (2 : ℚ) ^ (1023 : ℤ)) :
    ∃ v, IsVal (round neg n d s) neg v ∧ Nearest ((n : ℚ) / d * (2 : ℚ) ^ s) v := by
  by_cases hn : n = 0
  · refine ⟨0, ⟨0, -1074, ?_, by simp, by norm_num, le_rfl⟩, ?_⟩
    · simp [round, hn]
    · intro y _
      simp [hn]
  · obtain ⟨hL1, hL2⟩ := floorLog2_spec n d s hn hd
    set x : ℚ := (n : ℚ) / d * (2 : ℚ) ^ s with hxdef
    set L : ℤ := floorLog2 n d s with hLdef
    set e : ℤ := max (L - 52) (-1074) with hedef
    have hLlt : L < 1023 := zpow_le_of_lt_zpow hL1 hx
    have he1 : L - 52 ≤ e := le_max_left _ _
    have he2 : -1074 ≤ e := le_max_right _ _
    have he3 : e ≤ 970 := max_le (by omega) (by norm_num)
    have ht : (0 : ℚ) < (2 : ℚ) ^ e := by positivity
    set X : ℚ := x / (2 : ℚ) ^ e with hXdef
    have hxX : x = X * (2 : ℚ) ^ e := by rw [hXdef]; field_simp
    have hD : 0 < scaleDen d (s - e) := scaleDen_pos d _ hd
    have hND : ((scaleNum n (s - e) : Nat) : ℚ) / ((scaleDen d (s - e) : Nat) : ℚ) = X := by
      rw [scale_spec, hXdef, hxdef, zpow_sub₀ (by norm_num)]
      field_simp
    set q : ℕ := rne (scaleNum n (s - e)) (scaleDen d (s - e)) with hqdef
    have hq : |(q : ℚ) - X| ≤ 1 / 2 := by
      have := rne_spec (scaleNum n (s - e)) (scaleDen d (s - e)) hD
      rwa [hND] at this
    have hX53 : X < (2 : ℚ) ^ (53 : ℕ) := by
      rw [hXdef, div_lt_iff₀ ht]
      calc x < (2 : ℚ) ^ (L + 1) := hL2
        _ ≤ (2 : ℚ) ^ (53 + e) := zpow_le_zpow_right₀ (by norm_num) (by omega)
        _ = (2 : ℚ) ^ (53 : ℕ) * (2 : ℚ) ^ e := by
            rw [zpow_add₀ (by norm_num)]; norm_cast
    have hq53 : q ≤ 2 ^ 53 := by
      have h1 : (q : ℚ) < (2 : ℚ) ^ (53 : ℕ) + 1 := by
        have := (abs_le.1 hq).2
        linarith
      have h2 : (q : ℚ) < ((2 ^ 53 + 1 : ℕ) : ℚ) := by norm_num at h1 ⊢; exact h1
      have h3 : q < 2 ^ 53 + 1 := by exact_mod_cast h2
      omega
    have hnear : Nearest x ((q : ℚ) * (2 : ℚ) ^ e) := by
      intro y hy
      obtain ⟨m', e', hm', he', rfl⟩ := hy
      have hfac1 : (q : ℚ) * (2 : ℚ) ^ e - x = ((q : ℚ) - X) * (2 : ℚ) ^ e := by
        rw [hxX]; ring
      have hy2 : (m' : ℚ) * (2 : ℚ) ^ e' = ((m' : ℚ) * (2 : ℚ) ^ (e' - e)) * (2 : ℚ) ^ e := by
        rw [mul_assoc, ← zpow_add₀ (by norm_num)]; congr 2; ring
      have hfac2 : (m' : ℚ) * (2 : ℚ) ^ e' - x
          = ((m' : ℚ) * (2 : ℚ) ^ (e' - e) - X) * (2 : ℚ) ^ e := by
        rw [hy2, hxX]; ring
      rw [hfac1, hfac2, abs_mul, abs_mul]
      apply mul_le_mul_of_nonneg_right _ (abs_nonneg _)
      rcases le_or_lt e e' with hee | hee
      · have hz : (m' : ℚ) * (2 : ℚ) ^ (e' - e) = (((m' * 2 ^ (e' - e).toNat : ℕ) : ℤ) : ℚ) := by
          push_cast
          have := two_pow_toNat (e' - e) (by omega)
          push_cast at this
          rw [this]
        rw [hz]
        have := nearest_int (q : ℤ) X (by simpa using hq) ((m' * 2 ^ (e' - e).toNat : ℕ) : ℤ)
        simpa using this
      · have heL : e = L - 52 := by
          rcases max_choice (L - 52) (-1074) with h | h
          · rw [hedef, h]
          · rw [hedef, h] at hee; omega
        have hX52 : (2 : ℚ) ^ (52 : ℕ) ≤ X := by
          rw [hXdef, le_div_iff₀ ht]
          calc (2 : ℚ) ^ (52 : ℕ) * (2 : ℚ) ^ e = (2 : ℚ) ^ (52 + e) := by
                rw [zpow_add₀ (by norm_num)]; norm_cast
            _ = (2 : ℚ) ^ L := by congr 1; omega
            _ ≤ x := hL1
        have hy52 : (m' : ℚ) * (2 : ℚ) ^ (e' - e) < (2 : ℚ) ^ (52 : ℕ) := by
          have h1 : (2 : ℚ) ^ (e' - e) ≤ (2 : ℚ) ^ (-1 : ℤ) :=
            zpow_le_zpow_right₀ (by norm_num) (by omega)
          have h2 : (m' : ℚ) < (2 : ℚ) ^ (53 : ℕ) := by exact_mod_cast hm'
          have h3 : (0 : ℚ) ≤ m' := by positivity
          have h4 : (0 : ℚ) < (2 : ℚ) ^ (e' - e) := by positivity
          calc (m' : ℚ) * (2 : ℚ) ^ (e' - e) ≤ (m' : ℚ) * (2 : ℚ) ^ (-1 : ℤ) :=
                mul_le_mul_of_nonneg_left h1 h3
            _ < (2 : ℚ) ^ (53 : ℕ) * (2 : ℚ) ^ (-1 : ℤ) :=
                mul_lt_mul_of_pos_right h2 (by positivity)
            _ = (2 : ℚ) ^ (52 : ℕ) := by norm_num
        have h52 := nearest_int (q : ℤ) X (by simpa using hq) ((2 ^ 52 : ℕ) : ℤ)
        have h52' : |(q : ℚ) - X| ≤ |(2 : ℚ) ^ (52 : ℕ) - X| := by simpa using h52
        have e1 : |(2 : ℚ) ^ (52 : ℕ) - X| = X - (2 : ℚ) ^ (52 : ℕ) := by
          rw [abs_sub_comm]; exact abs_of_nonneg (by linarith)
        have e2 : |(m' : ℚ) * (2 : ℚ) ^ (e' - e) - X| = X - (m' : ℚ) * (2 : ℚ) ^ (e' - e) := by
          rw [abs_sub_comm]; exact abs_of_nonneg (by linarith)
        rw [e2]; rw [e1] at h52'; linarith
    refine ⟨(q : ℚ) * (2 : ℚ) ^ e, ?_, hnear⟩
    by_cases hc : q = 2 ^ 53
    · refine ⟨2 ^ 52, e + 1, ?_, ?_, by norm_num, by omega⟩
      · have : ¬ (971 < e + 1) := by omega
        simp only [round, hn, if_false]
        simp only [← hLdef, ← hedef, ← hqdef, hc, if_true, this, if_false]
      · rw [hc, zpow_add₀ (by norm_num)]; push_cast; ring
    · refine ⟨q, e, ?_, rfl, by omega, he2⟩
      have : ¬ (971 < e) := by omega
      simp only [round, hn, if_false]
      simp only [← hLdef, ← hedef, ← hqdef, hc, if_false, this]

theorem Nearest.ge {x v c : ℚ} (h : Nearest x v) (hc : Rep c) (hcx : c ≤ x) : c ≤ v := by
  by_contra hlt
  push_neg at hlt
  have h1 := h c hc
  rw [abs_sub_comm c x, abs_of_nonneg (by linarith : 0 ≤ x - c), abs_sub_comm v x,
    abs_of_nonneg (by linarith : 0 ≤ x - v)] at h1
  linarith

theorem Nearest.le {x v c : ℚ} (h : Nearest x v) (hc : Rep c) (hcx : x ≤ c) : v ≤ c := by
  by_contra hlt
  push_neg at hlt
  have h1 := h c hc
  rw [abs_of_nonneg (by linarith : 0 ≤ c - x), abs_of_nonneg (by linarith : 0 ≤ v - x)] at h1
  linarith

theorem Nearest.exact {x v : ℚ} (h : Nearest x v) (hx : Rep x) : v = x := by
  have h1 := h x hx
  simp at h1
  linarith [sub_eq_zero.1 h1]


theorem rep_natCast (n : ℕ) (h : n < 2 ^ 53) : Rep (n : ℚ) :=
  ⟨n, 0, h, by norm_num, by simp⟩

theorem rep_two_pow (k : ℕ) : Rep ((2 : ℚ) ^ k) :=
  ⟨1, k, by norm_num, by omega, by simp⟩

theorem lt_two_pow_1023 {x : ℚ} {k : ℤ} (h : x ≤ (2 : ℚ) ^ k) (hk : k < 1023) :
    x < (2 : ℚ) ^ (1023 : ℤ) :=
  lt_of_le_of_lt h (zpow_lt_zpow_right₀ (by norm_num) hk)

theorem ofInt_isVal (i : Int) (h : i.natAbs ≤ 2 ^ 63) :
    ∃ v, IsVal (ofInt i) (decide (i < 0)) v ∧ Nearest (i.natAbs : ℚ) v := by
  have hx : ((i.natAbs : ℕ) : ℚ) / ((1 : ℕ) : ℚ) * (2 : ℚ) ^ (0 : ℤ) = (i.natAbs : ℚ) := by simp
  have hlt : ((i.natAbs : ℕ) : ℚ) / ((1 : ℕ) : ℚ) * (2 : ℚ) ^ (0 : ℤ) < (2 : ℚ) ^ (1023 : ℤ) := by
    rw [hx]
    have h1 : ((i.natAbs : ℕ) : ℚ) ≤ (2 : ℚ) ^ (63 : ℤ) := by exact_mod_cast h
    exact lt_two_pow_1023 h1 (by norm_num)
  obtain ⟨v, hv, hn⟩ := round_isVal (decide (i < 0)) i.natAbs 1 0 (by norm_num) hlt
  rw [hx] at hn
  exact ⟨v, hv, hn⟩

theorem div_isVal {f g : F64} {a b : Bool} {u w : ℚ} (hf : IsVal f a u) (hg : IsVal g b w)
    (hw : w ≠ 0) (hlt : u / w < (2 : ℚ) ^ (1023 : ℤ)) :
    ∃ v, IsVal (div f g) (xor a b) v ∧ Nearest (u / w) v := by
  obtain ⟨m, e, rfl, h2, _, _⟩ := hf
  obtain ⟨m', e', rfl, h2', _, _⟩ := hg
  have hm' : m' ≠ 0 := by
    rintro rfl
    apply hw; rw [← h2']; simp
  have hx : (m : ℚ) / (m' : ℚ) * (2 : ℚ) ^ (e - e') = u / w := by
    rw [← h2, ← h2', zpow_sub₀ (by norm_num)]
    have : (m' : ℚ) ≠ 0 := by exact_mod_cast hm'
    field_simp
  have := round_isVal (xor a b) m m' (e - e') hm' (by rw [hx]; exact hlt)
  rw [hx] at this
  simpa [div, hm'] using this

theorem mul_isVal {f g : F64} {a b : Bool} {u w : ℚ} (hf : IsVal f a u) (hg : IsVal g b w)
    (hlt : u * w < (2 : ℚ) ^ (1023 : ℤ)) :
    ∃ v, IsVal (mul f g) (xor a b) v ∧ Nearest (u * w) v := by
  obtain ⟨m, e, rfl, h2, _, _⟩ := hf
  obtain ⟨m', e', rfl, h2', _, _⟩ := hg
  have hx : ((m * m' : ℕ) : ℚ) / ((1 : ℕ) : ℚ) * (2 : ℚ) ^ (e + e') = u * w := by
    rw [← h2, ← h2', zpow_add₀ (by norm_num)]
    push_cast
    ring
  have := round_isVal (xor a b) (m * m') 1 (e + e') (by norm_num) (by rw [hx]; exact hlt)
  rw [hx] at this
  simpa [mul] using this

theorem le_spec (a b : Bool) (m m' : ℕ) (e e' : ℤ) :
    le (fin a m e) (fin b m' e') = true ↔
      ((sval a m : ℤ) : ℚ) * (2 : ℚ) ^ e ≤ ((sval b m' : ℤ) : ℚ) * (2 : ℚ) ^ e' := by
  have hk : (0 : ℚ) < (2 : ℚ) ^ (min e e') := by positivity
  have h1 : (2 : ℚ) ^ e = (2 : ℚ) ^ (e - min e e') * (2 : ℚ) ^ (min e e') := by
    rw [← zpow_add₀ (by norm_num)]; congr 1; ring
  have h2 : (2 : ℚ) ^ e' = (2 : ℚ) ^ (e' - min e e') * (2 : ℚ) ^ (min e e') := by
    rw [← zpow_add₀ (by norm_num)]; congr 1; ring
  have c1 := two_pow_toNat (e - min e e') (by have := min_le_left e e'; omega)
  have c2 := two_pow_toNat (e' - min e e') (by have := min_le_right e e'; omega)
  rw [h1, h2, ← mul_assoc, ← mul_assoc, mul_le_mul_right hk, ← c1, ← c2]
  simp only [le, decide_eq_true_eq]
  constructor
  · intro h; exact_mod_cast h
  · intro h; exact_mod_cast h

theorem ofInt_75 : ofInt 75 = fin false 5277655813324800 (-46) := by decide

theorem ofInt_100 : ofInt 100 = fin false 7036874417766400 (-46) := by decide

theorem isVal_100 : IsVal (ofInt 100) false 100 :=
  ⟨7036874417766400, -46, ofInt_100, by norm_num, by norm_num, by norm_num⟩

theorem ge75_pos {f : F64} {v : ℚ} (h : IsVal f false v) :
    ge f (ofInt 75) = true ↔ 75 ≤ v := by
  obtain ⟨m, e, rfl, h2, _, _⟩ := h
  rw [ge, ofInt_75, le_spec, ← h2]
  simp only [sval]
  norm_num

theorem ge75_neg {f : F64} {v : ℚ} (h : IsVal f true v) : ge f (ofInt 75) = false := by
  obtain ⟨m, e, rfl, h2, _, _⟩ := h
  have := le_spec false true 5277655813324800 m (-46) e
  rw [ge, ofInt_75]
  rw [Bool.eq_false_iff]
  intro hc
  have h3 := this.1 hc
  simp only [sval] at h3
  have h4 : (0 : ℚ) ≤ (m : ℚ) * (2 : ℚ) ^ e := by positivity
  norm_num at h3
  linarith

theorem lt75_iff {f : F64} {neg : Bool} {v : ℚ} (h : IsVal f neg v) :
    lt f (ofInt 75) = !ge f (ofInt 75) := by
  obtain ⟨m, e, rfl, h2, _, _⟩ := h
  have h1 := le_spec neg false m 5277655813324800 e (-46)
  have h2 := le_spec false neg 5277655813324800 m (-46) e
  rw [lt, ge, ofInt_75]
  by_cases hc : le (fin false 5277655813324800 (-46)) (fin neg m e) = true
  · simp [hc]
  · have hc' : ¬ _ := fun h => hc (h2.2 h)
    have : le (fin neg m e) (fin false 5277655813324800 (-46)) = true := h1.2 (le_of_not_le hc')
    simp [hc, this]

theorem rep_gap {r : ℚ} (hr : Rep r) (K : ℕ) (s : ℤ) (hK : 2 ^ 52 < K)
    (h : r < (K : ℚ) * (2 : ℚ) ^ s) : r ≤ ((K : ℚ) - 1) * (2 : ℚ) ^ s := by
  obtain ⟨m, e, hm, _, rfl⟩ := hr
  have hs : (0 : ℚ) < (2 : ℚ) ^ s := by positivity
  rcases le_or_lt s e with hse | hse
  · have e1 : (m : ℚ) * (2 : ℚ) ^ e = ((m * 2 ^ (e - s).toNat : ℕ) : ℚ) * (2 : ℚ) ^ s := by
      have := two_pow_toNat (e - s) (by omega)
      push_cast at this ⊢
      rw [this, mul_assoc, ← zpow_add₀ (by norm_num)]; congr 2; ring
    rw [e1] at h ⊢
    have h1 : ((m * 2 ^ (e - s).toNat : ℕ) : ℚ) < (K : ℚ) := lt_of_mul_lt_mul_right h hs.le
    have h2 : m * 2 ^ (e - s).toNat < K := by exact_mod_cast h1
    have h3 : m * 2 ^ (e - s).toNat + 1 ≤ K := h2
    have h4 : ((m * 2 ^ (e - s).toNat : ℕ) : ℚ) + 1 ≤ (K : ℚ) := by exact_mod_cast h3
    apply mul_le_mul_of_nonneg_right _ hs.le
    linarith
  · have h1 : (2 : ℚ) ^ e ≤ (2 : ℚ) ^ (s - 1) := zpow_le_zpow_right₀ (by norm_num) (by omega)
    have h2 : (m : ℚ) ≤ (2 : ℚ) ^ (53 : ℕ) := by exact_mod_cast hm.le
    have h3 : (2 : ℚ) ^ (s - 1) = (2 : ℚ) ^ s / 2 := by
      rw [zpow_sub₀ (by norm_num)]; simp
    have h4 : ((2 : ℚ) ^ (52 : ℕ)) ≤ (K : ℚ) - 1 := by
      have : 2 ^ 52 + 1 ≤ K := hK
      have : (((2 ^ 52 + 1 : ℕ)) : ℚ) ≤ (K : ℚ) := by exact_mod_cast this
      push_cast at this
      linarith
    calc (m : ℚ) * (2 : ℚ) ^ e ≤ (2 : ℚ) ^ (53 : ℕ) * (2 : ℚ) ^ (s - 1) :=
          mul_le_mul h2 h1 (by positivity) (by positivity)
      _ = (2 : ℚ) ^ (52 : ℕ) * (2 : ℚ) ^ s := by rw [h3]; ring
      _ ≤ ((K : ℚ) - 1) * (2 : ℚ) ^ s := mul_le_mul_of_nonneg_right h4 hs.le

theorem Nearest.ne_of_closer {x v c c' : ℚ} (h : Nearest x v) (hc' : Rep c') (h1 : c' < c)
    (h2 : 2 * x < c + c') : v ≠ c := by
  rintro rfl
  have h3 := h c' hc'
  rw [abs_of_nonneg (by linarith : 0 ≤ v - x)] at h3
  rcases le_total c' x with h4 | h4
  · rw [abs_sub_comm, abs_of_nonneg (by linarith : 0 ≤ x - c')] at h3; linarith
  · rw [abs_of_nonneg (by linarith : 0 ≤ c' - x)] at h3; linarith

end F64

open F64

theorem IsInt.natAbs_le {i : Int} (h : IsInt i) : i.natAbs ≤ 2 ^ 63 := by
  obtain ⟨h1, h2⟩ := h
  omega

theorem percentage_spec (p t : Int) (hp : IsInt p) (ht : IsInt t) (ht0 : t ≠ 0) :
    ∃ vp vt v1 v2, Nearest (p.natAbs : ℚ) vp ∧ Nearest (t.natAbs : ℚ) vt ∧
      Nearest (vp / vt) v1 ∧ Nearest (v1 * 100) v2 ∧
      IsVal (percentage p t) (xor (decide (p < 0)) (decide (t < 0))) v2 ∧
      1 ≤ vt ∧ Rep v1 ∧ IsVal (ofInt p) (decide (p < 0)) vp ∧
      IsVal (ofInt t) (decide (t < 0)) vt := by
  obtain ⟨vp, hvp, np⟩ := ofInt_isVal p hp.natAbs_le
  obtain ⟨vt, hvt, nt⟩ := ofInt_isVal t ht.natAbs_le
  have b63 : ∀ i : Int, IsInt i → ((i.natAbs : ℕ) : ℚ) ≤ (2 : ℚ) ^ (63 : ℕ) := by
    intro i hi
    exact_mod_cast hi.natAbs_le
  have hvp63 : vp ≤ (2 : ℚ) ^ (63 : ℕ) := np.le (rep_two_pow 63) (b63 p hp)
  have hvt1 : (1 : ℚ) ≤ vt := by
    have h1 : (1 : ℚ) ≤ (t.natAbs : ℚ) := by
      have : 1 ≤ t.natAbs := by omega
      exact_mod_cast this
    have := nt.ge (by simpa using rep_two_pow 0) h1
    exact this
  have hvp0 : 0 ≤ vp := hvp.nonneg
  have hq63 : vp / vt ≤ (2 : ℚ) ^ (63 : ℕ) := by
    rw [div_le_iff₀ (by linarith)]
    nlinarith
  obtain ⟨v1, hv1, n1⟩ := div_isVal hvp hvt (by linarith)
    (lt_two_pow_1023 (k := 63) (by exact_mod_cast hq63) (by norm_num))
  have hv163 : v1 ≤ (2 : ℚ) ^ (63 : ℕ) := n1.le (rep_two_pow 63) hq63
  have hm : v1 * 100 ≤ (2 : ℚ) ^ (70 : ℤ) := by
    have : (2 : ℚ) ^ (70 : ℤ) = (2 : ℚ) ^ (63 : ℕ) * 128 := by norm_num
    rw [this]
    have := hv1.nonneg
    nlinarith
  obtain ⟨v2, hv2, n2⟩ := mul_isVal hv1 isVal_100 (lt_two_pow_1023 hm (by norm_num))
  refine ⟨vp, vt, v1, v2, np, nt, n1, n2, ?_, hvt1, hv1.rep, hvp, hvt⟩
  simpa [percentage] using hv2

theorem pctLt75_eq (p t : Int) (hp : IsInt p) (ht : IsInt t) (ht0 : t ≠ 0) :
    pctLt75 p t = !pctGe75 p t := by
  obtain ⟨vp, vt, v1, v2, _, _, _, _, hv, _, _⟩ := percentage_spec p t hp ht ht0
  exact lt75_iff hv

theorem pctGe75_of_sign (p t : Int) (hp : IsInt p) (ht : IsInt t) (ht0 : t ≠ 0)
    (hs : (p < 0 ∧ 0 < t) ∨ (0 ≤ p ∧ t < 0)) : pctGe75 p t = false := by
  obtain ⟨vp, vt, v1, v2, _, _, _, _, hv, _, _⟩ := percentage_spec p t hp ht ht0
  have hx : xor (decide (p < 0)) (decide (t < 0)) = true := by
    rcases hs with ⟨h1, h2⟩ | ⟨h1, h2⟩
    · have : ¬ t < 0 := by omega
      simp [h1, this]
    · have : ¬ p < 0 := by omega
      simp [h2, this]
  rw [hx] at hv
  exact ge75_neg hv

theorem natAbs_cast_of_nonneg (i : Int) (h : 0 ≤ i) : ((i.natAbs : ℕ) : ℚ) = (i : ℚ) := by
  lift i to ℕ using h
  simp

theorem pctGe75_of_le (p t : Int) (hp0 : 0 ≤ p) (hp : p < 2 ^ 53) (ht0 : 0 < t) (ht : t < 2 ^ 53)
    (h : 3 * t ≤ 4 * p) : pctGe75 p t = true := by
  obtain ⟨vp, vt, v1, v2, np, nt, n1, n2, hv, _, _⟩ :=
    percentage_spec p t ⟨by omega, by omega⟩ ⟨by omega, by omega⟩ (by omega)
  have hx : xor (decide (p < 0)) (decide (t < 0)) = false := by
    have h1 : ¬ p < 0 := by omega
    have h2 : ¬ t < 0 := by omega
    simp [h1, h2]
  rw [hx] at hv
  have ep : vp = (p : ℚ) := by
    rw [← natAbs_cast_of_nonneg p hp0]
    exact np.exact (rep_natCast _ (by omega))
  have et : vt = (t : ℚ) := by
    rw [← natAbs_cast_of_nonneg t ht0.le]
    exact nt.exact (rep_natCast _ (by omega))
  have ht' : (0 : ℚ) < (t : ℚ) := by exact_mod_cast ht0
  have hq : (3 : ℚ) / 4 ≤ vp / vt := by
    rw [ep, et, le_div_iff₀ ht']
    have : ((3 * t : ℤ) : ℚ) ≤ ((4 * p : ℤ) : ℚ) := by exact_mod_cast h
    push_cast at this
    linarith
  have r34 : Rep ((3 : ℚ) / 4) := ⟨3, -2, by norm_num, by norm_num, by norm_num⟩
  have h1 : (3 : ℚ) / 4 ≤ v1 := n1.ge r34 hq
  have r75 : Rep (75 : ℚ) := by simpa using rep_natCast 75 (by norm_num)
  have h2 : (75 : ℚ) ≤ v2 := n2.ge r75 (by linarith)
  exact (ge75_pos hv).2 h2

theorem pctGe75_of_lt (p t : Int) (hp0 : 0 ≤ p) (ht0 : 0 < t) (ht : t < 2 ^ 52)
    (h : 4 * p < 3 * t) : pctGe75 p t = false := by
  obtain ⟨vp, vt, v1, v2, np, nt, n1, n2, hv, _, hr1, _⟩ :=
    percentage_spec p t ⟨by omega, by omega⟩ ⟨by omega, by omega⟩ (by omega)
  have hx : xor (decide (p < 0)) (decide (t < 0)) = false := by
    have h1 : ¬ p < 0 := by omega
    have h2 : ¬ t < 0 := by omega
    simp [h1, h2]
  rw [hx] at hv
  have ep : vp = (p : ℚ) := by
    rw [← natAbs_cast_of_nonneg p hp0]
    exact np.exact (rep_natCast _ (by omega))
  have et : vt = (t : ℚ) := by
    rw [← natAbs_cast_of_nonneg t ht0.le]
    exact nt.exact (rep_natCast _ (by omega))
  have ht' : (0 : ℚ) < (t : ℚ) := by exact_mod_cast ht0
  -- the exact quotient is below 3/4 by more than half a unit in the last place
  have hq : vp / vt ≤ (3 : ℚ) / 4 - 1 / (4 * t) := by
    rw [ep, et, div_le_iff₀ ht']
    have : ((4 * p + 1 : ℤ) : ℚ) ≤ ((3 * t : ℤ) : ℚ) := by exact_mod_cast h
    push_cast at this
    have e1 : ((3 : ℚ) / 4 - 1 / (4 * t)) * t = (3 * t - 1) / 4 := by field_simp; ring
    rw [e1]; linarith
  have ht52 : (4 : ℚ) * t < (2 : ℚ) ^ (54 : ℕ) := by
    have : 4 * t < 2 ^ 54 := by omega
    exact_mod_cast this
  have hu : (1 : ℚ) / (2 : ℚ) ^ (54 : ℕ) < 1 / (4 * t) :=
    one_div_lt_one_div_of_lt (by linarith) ht52
  have r34 : Rep ((3 : ℚ) / 4) := ⟨3, -2, by norm_num, by norm_num, by norm_num⟩
  have rlo : Rep ((3 : ℚ) / 4 - 1 / (2 : ℚ) ^ (53 : ℕ)) :=
    ⟨3 * 2 ^ 51 - 1, -53, by norm_num, by norm_num, by norm_num⟩
  have h1 : v1 ≤ (3 : ℚ) / 4 := n1.le r34 (by have : (0 : ℚ) < 1 / (4 * t) := by positivity
                                              linarith)
  have h1ne : v1 ≠ (3 : ℚ) / 4 := by
    apply n1.ne_of_closer rlo (by norm_num)
    have : (1 : ℚ) / (2 : ℚ) ^ (53 : ℕ) = 2 * (1 / (2 : ℚ) ^ (54 : ℕ)) := by norm_num
    linarith
  have h1lt : v1 < ((3 * 2 ^ 51 : ℕ) : ℚ) * (2 : ℚ) ^ (-53 : ℤ) := by
    have : ((3 * 2 ^ 51 : ℕ) : ℚ) * (2 : ℚ) ^ (-53 : ℤ) = 3 / 4 := by norm_num
    rw [this]; exact lt_of_le_of_ne h1 h1ne
  have h1gap := rep_gap hr1 (3 * 2 ^ 51) (-53) (by norm_num) h1lt
  have h1b : v1 ≤ (3 : ℚ) / 4 - 1 / (2 : ℚ) ^ (53 : ℕ) := by
    have : (((3 * 2 ^ 51 : ℕ) : ℚ) - 1) * (2 : ℚ) ^ (-53 : ℤ) = 3 / 4 - 1 / (2 : ℚ) ^ (53 : ℕ) := by
      norm_num
    rw [this] at h1gap; exact h1gap
  have r75 : Rep (75 : ℚ) := by simpa using rep_natCast 75 (by norm_num)
  have r75lo : Rep ((75 : ℚ) - 1 / (2 : ℚ) ^ (46 : ℕ)) :=
    ⟨75 * 2 ^ 46 - 1, -46, by norm_num, by norm_num, by norm_num⟩
  have h2 : v2 ≤ 75 := n2.le r75 (by
    have : (0 : ℚ) < 1 / (2 : ℚ) ^ (53 : ℕ) := by positivity
    linarith)
  have h2ne : v2 ≠ 75 := by
    apply n2.ne_of_closer r75lo (by norm_num)
    have e1 : (1 : ℚ) / (2 : ℚ) ^ (46 : ℕ) = 128 * (1 / (2 : ℚ) ^ (53 : ℕ)) := by norm_num
    have : (0 : ℚ) < 1 / (2 : ℚ) ^ (53 : ℕ) := by positivity
    linarith
  have h2lt : ¬ (75 : ℚ) ≤ v2 := fun hc => h2ne (le_antisymm h2 hc)
  rw [Bool.eq_false_iff]
  exact fun hc => h2lt ((ge75_pos hv).1 hc)

theorem pctGe75_iff (p t : Int) (hp0 : 0 ≤ p) (hp : p < 2 ^ 53) (ht0 : 0 < t) (ht : t < 2 ^ 52) :
    pctGe75 p t = true ↔ 3 * t ≤ 4 * p := by
  constructor
  · intro h
    by_contra hc
    have := pctGe75_of_lt p t hp0 ht0 ht (by omega)
    rw [this] at h; exact Bool.false_ne_true h
  · intro h
    exact pctGe75_of_le p t hp0 hp ht0 (by omega) h

theorem pctGe75_min (t : Int) (ht : IsInt t) (ht0 : t < 0) : pctGe75 (-2 ^ 63) t = true := by
  obtain ⟨vp, vt, v1, v2, np, nt, n1, n2, hv, hvt1, _⟩ :=
    percentage_spec (-2 ^ 63) t ⟨by norm_num, by norm_num⟩ ht (by omega)
  have hx : xor (decide ((-2 ^ 63 : ℤ) < 0)) (decide (t < 0)) = false := by
    simp [ht0]
  rw [hx] at hv
  have ep : vp = (2 : ℚ) ^ (63 : ℕ) := by
    have : (((-2 ^ 63 : ℤ).natAbs : ℕ) : ℚ) = (2 : ℚ) ^ (63 : ℕ) := by norm_num
    rw [this] at np
    exact np.exact (rep_two_pow 63)
  have hvt : vt ≤ (2 : ℚ) ^ (63 : ℕ) :=
    nt.le (rep_two_pow 63) (by exact_mod_cast ht.natAbs_le)
  have hq : (1 : ℚ) ≤ vp / vt := by
    rw [le_div_iff₀ (by linarith), ep]; linarith
  have h1 : (1 : ℚ) ≤ v1 := n1.ge (by simpa using rep_two_pow 0) hq
  have r75 : Rep (75 : ℚ) := by simpa using rep_natCast 75 (by norm_num)
  have h2 : (75 : ℚ) ≤ v2 := n2.ge r75 (by linarith)
  exact (ge75_pos hv).2 h2

theorem F64.IsVal.unique {f : F64} {a b : Bool} {u w : ℚ} (h1 : IsVal f a u) (h2 : IsVal f b w) :
    u = w := by
  obtain ⟨m, e, rfl, h, _, _⟩ := h1
  obtain ⟨m', e', h', h'', _, _⟩ := h2
  injection h' with _ hm he
  subst hm he
  rw [← h, ← h'']

theorem F64.Nearest.mono {x y vx vy : ℚ} (hx : Nearest x vx) (hy : Nearest y vy)
    (rx : Rep vx) (ry : Rep vy) (h : x < y) : vx ≤ vy := by
  by_contra hc
  push_neg at hc
  have h1 := hx vy ry
  have h2 := hy vx rx
  rcases abs_cases (vx - x) with ⟨a1, _⟩ | ⟨a1, _⟩ <;>
  rcases abs_cases (vy - x) with ⟨a2, _⟩ | ⟨a2, _⟩ <;>
  rcases abs_cases (vy - y) with ⟨a3, _⟩ | ⟨a3, _⟩ <;>
  rcases abs_cases (vx - y) with ⟨a4, _⟩ | ⟨a4, _⟩ <;>
  rw [a1, a2] at h1 <;> rw [a3, a4] at h2 <;> linarith

theorem pctGe75_of_ge (p t : Int) (hp : IsInt p) (ht0 : 0 < t) (h : t ≤ p) :
    pctGe75 p t = true := by
  obtain ⟨vp, vt, v1, v2, np, nt, n1, n2, hv, hvt1, _, hvp, hvt⟩ :=
    percentage_spec p t hp ⟨by omega, by have := hp.2; omega⟩ (by omega)
  have hx : xor (decide (p < 0)) (decide (t < 0)) = false := by
    have h1 : ¬ p < 0 := by omega
    have h2 : ¬ t < 0 := by omega
    simp [h1, h2]
  rw [hx] at hv
  have hle : vt ≤ vp := by
    rcases eq_or_lt_of_le h with rfl | hlt
    · exact le_of_eq (hvt.unique hvp)
    · apply nt.mono np hvt.rep hvp.rep
      have : t.natAbs < p.natAbs := by omega
      exact_mod_cast this
  have hq : (1 : ℚ) ≤ vp / vt := by
    rw [le_div_iff₀ (by linarith)]; linarith
  have h1 : (1 : ℚ) ≤ v1 := n1.ge (by simpa using rep_two_pow 0) hq
  have r75 : Rep (75 : ℚ) := by simpa using rep_natCast 75 (by norm_num)
  have h2 : (75 : ℚ) ≤ v2 := n2.ge r75 (by linarith)
  exact (ge75_pos hv).2 h2

theorem wrapInt_of_isInt {x : Int} (h : IsInt x) : wrapInt x = x := by
  obtain ⟨h1, h2⟩ := h
  unfold wrapInt
  omega

theorem wrapInt_isInt (x : Int) : IsInt (wrapInt x) := by
  unfold wrapInt IsInt
  omega

theorem wrapInt_add_wrapInt (x y : Int) : wrapInt (wrapInt x + y) = wrapInt (x + y) := by
  unfold wrapInt
  omega

theorem skippableLoop_run : ∀ (j fuel : Nat) (p tt s : Int), j < fuel →
    (∀ i : Nat, i < j → pctGe75 p (tt + 1 + i) = true) → pctGe75 p (tt + 1 + j) = false →
    -2 ^ 63 ≤ tt → tt + 1 + j < 2 ^ 63 → -2 ^ 63 ≤ s → s + j < 2 ^ 63 →
    skippableLoop fuel p tt s = some (s + j) := by
  intro j
  induction j with
  | zero =>
    intro fuel p tt s hf _ hlast h1 h2 h3 h4
    obtain ⟨f, rfl⟩ : ∃ f, fuel = f + 1 := ⟨fuel - 1, by omega⟩
    have hw : wrapInt (tt + 1) = tt + 1 := wrapInt_of_isInt ⟨by omega, by omega⟩
    simp only [Nat.cast_zero, add_zero] at hlast
    simp [skippableLoop, hw, hlast]
  | succ j ih =>
    intro fuel p tt s hf hall hlast h1 h2 h3 h4
    obtain ⟨f, rfl⟩ : ∃ f, fuel = f + 1 := ⟨fuel - 1, by omega⟩
    have hw : wrapInt (tt + 1) = tt + 1 := wrapInt_of_isInt ⟨by omega, by omega⟩
    have hs : wrapInt (s + 1) = s + 1 := wrapInt_of_isInt ⟨by omega, by omega⟩
    have h0 : pctGe75 p (tt + 1) = true := by simpa using hall 0 (by omega)
    have := ih f p (tt + 1) (s + 1) (by omega)
      (fun i hi => by
        have := hall (i + 1) (by omega)
        push_cast at this
        rw [← this]; congr 1; ring)
      (by push_cast at hlast; rw [← hlast]; congr 1; ring)
      (by omega) (by push_cast at h2; omega) (by omega) (by push_cast at h4; omega)
    simp only [skippableLoop, hw, hs, h0, if_true, this]
    congr 1
    push_cast; ring

theorem requiredLoop_run : ∀ (j fuel : Nat) (p tt s : Int), j < fuel →
    (∀ i : Nat, i < j → pctGe75 (p + 1 + i) (tt + 1 + i) = false) →
    pctGe75 (p + 1 + j) (tt + 1 + j) = true →
    -2 ^ 63 ≤ p → p + 1 + j < 2 ^ 63 → -2 ^ 63 ≤ tt → tt + 1 + j < 2 ^ 63 →
    -2 ^ 63 ≤ s → s + 1 + j < 2 ^ 63 →
    requiredLoop fuel p tt s = some (s + 1 + j) := by
  intro j
  induction j with
  | zero =>
    intro fuel p tt s hf _ hlast hp1 hp2 h1 h2 h3 h4
    obtain ⟨f, rfl⟩ : ∃ f, fuel = f + 1 := ⟨fuel - 1, by omega⟩
    have hw : wrapInt (tt + 1) = tt + 1 := wrapInt_of_isInt ⟨by omega, by omega⟩
    have hw' : wrapInt (p + 1) = p + 1 := wrapInt_of_isInt ⟨by omega, by omega⟩
    have hs : wrapInt (s + 1) = s + 1 := wrapInt_of_isInt ⟨by omega, by omega⟩
    simp only [Nat.cast_zero, add_zero] at hlast
    simp [requiredLoop, hw, hw', hs, hlast]
  | succ j ih =>
    intro fuel p tt s hf hall hlast hp1 hp2 h1 h2 h3 h4
    obtain ⟨f, rfl⟩ : ∃ f, fuel = f + 1 := ⟨fuel - 1, by omega⟩
    have hw : wrapInt (tt + 1) = tt + 1 := wrapInt_of_isInt ⟨by omega, by omega⟩
    have hw' : wrapInt (p + 1) = p + 1 := wrapInt_of_isInt ⟨by omega, by omega⟩
    have hs : wrapInt (s + 1) = s + 1 := wrapInt_of_isInt ⟨by omega, by omega⟩
    have h0 : pctGe75 (p + 1) (tt + 1) = false := by simpa using hall 0 (by omega)
    have := ih f (p + 1) (tt + 1) (s + 1) (by omega)
      (fun i hi => by
        have := hall (i + 1) (by omega)
        push_cast at this
        rw [← this]; congr 1 <;> ring)
      (by push_cast at hlast; rw [← hlast]; congr 1 <;> ring)
      (by omega) (by push_cast at hp2; omega) (by omega) (by push_cast at h2; omega)
      (by omega) (by push_cast at h4; omega)
    simp only [requiredLoop, hw, hw', hs, h0, this]
    simp
    ring

theorem skippableLoop_bound : ∀ (J fuel : Nat) (p tt s : Int), J < fuel → IsInt s →
    pctGe75 p (wrapInt (tt + (J + 1 : Nat))) = false →
    ∃ k : Nat, k ≤ J ∧ skippableLoop fuel p tt s = some (wrapInt (s + k)) := by
  intro J
  induction J with
  | zero =>
    intro fuel p tt s hf hs hlast
    obtain ⟨f, rfl⟩ : ∃ f, fuel = f + 1 := ⟨fuel - 1, by omega⟩
    refine ⟨0, le_rfl, ?_⟩
    simp only [zero_add, Nat.cast_one] at hlast
    simp [skippableLoop, hlast, wrapInt_of_isInt hs]
  | succ J ih =>
    intro fuel p tt s hf hs hlast
    obtain ⟨f, rfl⟩ : ∃ f, fuel = f + 1 := ⟨fuel - 1, by omega⟩
    by_cases h0 : pctGe75 p (wrapInt (tt + 1)) = true
    · have hl : pctGe75 p (wrapInt (wrapInt (tt + 1) + (J + 1 : Nat))) = false := by
        rw [wrapInt_add_wrapInt]
        rw [← hlast]; congr 2; push_cast; ring
      obtain ⟨k, hk, hr⟩ := ih f p (wrapInt (tt + 1)) (wrapInt (s + 1)) (by omega)
        (wrapInt_isInt _) hl
      refine ⟨k + 1, by omega, ?_⟩
      simp only [skippableLoop, h0, if_true]
      rw [hr, wrapInt_add_wrapInt]; congr 2; push_cast; ring
    · refine ⟨0, by omega, ?_⟩
      simp [skippableLoop, h0, wrapInt_of_isInt hs]

theorem requiredLoop_bound : ∀ (J fuel : Nat) (p tt s : Int), J < fuel →
    pctGe75 (wrapInt (p + (J + 1 : Nat))) (wrapInt (tt + (J + 1 : Nat))) = true →
    ∃ k : Nat, k ≤ J ∧ requiredLoop fuel p tt s = some (wrapInt (s + (k + 1 : Nat))) := by
  intro J
  induction J with
  | zero =>
    intro fuel p tt s hf hlast
    obtain ⟨f, rfl⟩ : ∃ f, fuel = f + 1 := ⟨fuel - 1, by omega⟩
    refine ⟨0, le_rfl, ?_⟩
    simp only [zero_add, Nat.cast_one] at hlast
    simp [requiredLoop, hlast]
  | succ J ih =>
    intro fuel p tt s hf hlast
    obtain ⟨f, rfl⟩ : ∃ f, fuel = f + 1 := ⟨fuel - 1, by omega⟩
    by_cases h0 : pctGe75 (wrapInt (p + 1)) (wrapInt (tt + 1)) = true
    · refine ⟨0, by omega, ?_⟩
      simp [requiredLoop, h0]
    · have hl : pctGe75 (wrapInt (wrapInt (p + 1) + (J + 1 : Nat)))
          (wrapInt (wrapInt (tt + 1) + (J + 1 : Nat))) = true := by
        rw [wrapInt_add_wrapInt, wrapInt_add_wrapInt]
        rw [← hlast]; congr 2 <;> (push_cast; ring)
      obtain ⟨k, hk, hr⟩ := ih f (wrapInt (p + 1)) (wrapInt (tt + 1)) (wrapInt (s + 1))
        (by omega) hl
      refine ⟨k + 1, by omega, ?_⟩
      simp only [requiredLoop, h0]
      simp only [Bool.false_eq_true, if_false]
      rw [hr, wrapInt_add_wrapInt]; congr 2; push_cast; ring

theorem skippable_eq_of_range (present total : Int) (ht : 0 < total) (hp : present < 2 ^ 51)
    (h : 3 * total ≤ 4 * present) :
    calculateSkippableHours present total = some (4 * present / 3 - total) := by
  have hk : 0 ≤ 4 * present / 3 - total := by omega
  obtain ⟨k, hk'⟩ : ∃ k : ℕ, (k : ℤ) = 4 * present / 3 - total := ⟨_, Int.toNat_of_nonneg hk⟩
  have hg : pctGe75 present total = true :=
    pctGe75_of_le present total (by omega) (by omega) ht (by omega) h
  have hlt : pctLt75 present total = false := by
    rw [pctLt75_eq present total ⟨by omega, by omega⟩ ⟨by omega, by omega⟩ (by omega), hg]; rfl
  have hrun := skippableLoop_run k loopFuel present total 0
    (by unfold loopFuel; omega)
    (fun i hi => pctGe75_of_le present (total + 1 + i) (by omega) (by omega) (by omega)
      (by omega) (by omega))
    (pctGe75_of_lt present (total + 1 + k) (by omega) (by omega) (by omega) (by omega))
    (by omega) (by omega) (by omega) (by omega)
  unfold calculateSkippableHours
  rw [if_neg (by omega), hlt, hrun, ← hk']
  simp

theorem required_eq_of_range (present total : Int) (ht : 0 < total)
    (hp : total - present < 2 ^ 50) (h : 4 * present < 3 * total) :
    calculateRequiredHours present total = some (3 * total - 4 * present) := by
  obtain ⟨j, hj⟩ : ∃ j : ℕ, (j : ℤ) + 1 = 3 * total - 4 * present :=
    ⟨(3 * total - 4 * present - 1).toNat, by omega⟩
  have hcheck : ∀ p t : Int, p - present = t - total → 0 ≤ t - total →
      4 * p < 3 * t → t - total < 3 * total - 4 * present → pctGe75 p t = false := by
    intro p t h1 h2 h3 h4
    by_cases hneg : p < 0
    · exact pctGe75_of_sign p t ⟨by omega, by omega⟩ ⟨by omega, by omega⟩ (by omega)
        (Or.inl ⟨hneg, by omega⟩)
    · exact pctGe75_of_lt p t (by omega) (by omega) (by omega) h3
  have hg : pctGe75 present total = false := hcheck present total (by omega) (by omega) h (by omega)
  have hrun := requiredLoop_run j loopFuel present total 0
    (by unfold loopFuel; omega)
    (fun i hi => hcheck (present + 1 + i) (total + 1 + i) (by omega) (by omega) (by omega)
      (by omega))
    (pctGe75_of_le (present + 1 + j) (total + 1 + j) (by omega) (by omega) (by omega) (by omega)
      (by omega))
    (by omega) (by omega) (by omega) (by omega) (by omega) (by omega)
  unfold calculateRequiredHours
  rw [if_neg (by omega), hg, hrun, ← hj]
  simp
  ring

theorem skippable_terminates (present total : Int) (hp0 : 0 ≤ present) (ht0 : 0 ≤ total)
    (hp : IsInt present) (ht : IsInt total) :
    ∃ k : Nat, calculateSkippableHours present total = some (k : ℤ) ∧
      ∀ j : Nat, 1 ≤ j → j ≤ k + 1 → wrapInt (total + j) ≠ 0 := by
  have hnz : ∀ k : Nat, (k : ℤ) + 1 ≤ 2 ^ 63 - total →
      ∀ j : Nat, 1 ≤ j → j ≤ k + 1 → wrapInt (total + j) ≠ 0 := by
    intro k hk j h1 h2
    unfold wrapInt
    omega
  obtain ⟨hp1, hp2⟩ := hp
  obtain ⟨ht1, ht2⟩ := ht
  unfold calculateSkippableHours
  by_cases h0 : total = 0
  · exact ⟨0, by simp [h0], hnz 0 (by omega)⟩
  by_cases hlt : pctLt75 present total = true
  · exact ⟨0, by simp [h0, hlt], hnz 0 (by omega)⟩
  obtain ⟨J, hJ⟩ : ∃ J : ℕ, (J : ℤ) + 1 = 2 ^ 63 - total := ⟨(2 ^ 63 - total - 1).toNat, by omega⟩
  have hw : wrapInt (total + (J + 1 : Nat)) = -2 ^ 63 := by
    unfold wrapInt; push_cast; omega
  have hlast : pctGe75 present (wrapInt (total + (J + 1 : Nat))) = false := by
    rw [hw]
    exact pctGe75_of_sign present (-2 ^ 63) ⟨hp1, hp2⟩ ⟨by norm_num, by norm_num⟩ (by norm_num)
      (Or.inr ⟨hp0, by norm_num⟩)
  obtain ⟨k, hk, hr⟩ := skippableLoop_bound J loopFuel present total 0
    (by unfold loopFuel; omega) ⟨by norm_num, by norm_num⟩ hlast
  refine ⟨k, ?_, hnz k (by omega)⟩
  rw [if_neg h0, if_neg hlt, hr, wrapInt_of_isInt ⟨by omega, by omega⟩]
  simp

theorem required_terminates (present total : Int) (hp0 : 0 ≤ present) (ht0 : 0 ≤ total)
    (hp : IsInt present) (ht : IsInt total) :
    ∃ k : Nat, calculateRequiredHours present total = some (wrapInt k) ∧
      ∀ j : Nat, 1 ≤ j → j ≤ k → wrapInt (total + j) ≠ 0 := by
  unfold calculateRequiredHours
  by_cases h0 : total = 0
  · exact ⟨0, by simp [h0, wrapInt], fun j h1 h2 => by omega⟩
  by_cases hge : pctGe75 present total = true
  · exact ⟨0, by simp [h0, hge, wrapInt], fun j h1 h2 => by omega⟩
  have hpt : present < total := by
    by_contra hc
    exact hge (pctGe75_of_ge present total hp (by omega) (by omega))
  obtain ⟨hp1, hp2⟩ := hp
  obtain ⟨ht1, ht2⟩ := ht
  obtain ⟨J, hJ⟩ : ∃ J : ℕ, (J : ℤ) + 1 = 2 ^ 63 - present :=
    ⟨(2 ^ 63 - present - 1).toNat, by omega⟩
  have hw : wrapInt (present + (J + 1 : Nat)) = -2 ^ 63 := by
    unfold wrapInt; push_cast; omega
  have hw2 : wrapInt (total + (J + 1 : Nat)) < 0 := by
    unfold wrapInt; push_cast; omega
  have hlast : pctGe75 (wrapInt (present + (J + 1 : Nat))) (wrapInt (total + (J + 1 : Nat)))
      = true := by
    rw [hw]
    exact pctGe75_min _ (wrapInt_isInt _) hw2
  obtain ⟨k, hk, hr⟩ := requiredLoop_bound J loopFuel present total 0
    (by unfold loopFuel; omega) hlast
  refine ⟨k + 1, ?_, ?_⟩
  · rw [if_neg h0, if_neg hge, hr]
    simp
  · intro j h1 h2
    unfold wrapInt
    omega

/-! ### AttendanceProjector: the claims -/

/-- C1 (counterexample). With `present = 3*2^50 + 2` and `total = 2^52 + 2` the
precondition holds (exactly and in `float64`), `calculateSkippableHours` returns 1, yet
`present/(total+1) < 0.75`: the returned count is not one that keeps the ratio at 75%. -/
theorem calculateSkippableHours_counterexample :
    (0 : ℤ) < 4503599627370498 ∧
    (75 : ℚ) ≤ ((3377699720527874 : ℤ) : ℚ) / ((4503599627370498 : ℤ) : ℚ) * 100 ∧
    pctLt75 3377699720527874 4503599627370498 = false ∧
    calculateSkippableHours 3377699720527874 4503599627370498 = some 1 ∧
    ((3377699720527874 : ℤ) : ℚ) / (((4503599627370498 : ℤ) : ℚ) + 1) < 3 / 4 := by
  refine ⟨by norm_num, by norm_num, by decide, by decide, by norm_num⟩

/-- C1 (amended). For `total > 0`, `present < 2^51` and `present/total*100 ≥ 75`,
`calculateSkippableHours` returns the largest `k ≥ 0` with `present/(total+k) ≥ 0.75`
in exact rational arithmetic: the inequality holds at `k`, fails at `k+1`, and no
larger `j` satisfies it. -/
theorem calculateSkippableHours_largest (present total : Int) (ht : 0 < total)
    (hp : present < 2 ^ 51) (h : (75 : ℚ) ≤ (present : ℚ) / (total : ℚ) * 100) :
    ∃ k : ℤ, calculateSkippableHours present total = some k ∧ 0 ≤ k ∧
      (3 : ℚ) / 4 ≤ (present : ℚ) / ((total : ℚ) + k) ∧
      (present : ℚ) / ((total : ℚ) + k + 1) < 3 / 4 ∧
      ∀ j : ℤ, 0 ≤ j → (3 : ℚ) / 4 ≤ (present : ℚ) / ((total : ℚ) + j) → j ≤ k := by
  have ht' : (0 : ℚ) < (total : ℚ) := by exact_mod_cast ht
  have hint : 3 * total ≤ 4 * present := by
    have h1 : (75 : ℚ) * total ≤ (present : ℚ) * 100 := by
      have e : (present : ℚ) / (total : ℚ) * 100 = (present : ℚ) * 100 / (total : ℚ) := by ring
      rw [e, le_div_iff₀ ht'] at h
      exact h
    have h2 : ((3 * total : ℤ) : ℚ) ≤ ((4 * present : ℤ) : ℚ) := by push_cast; linarith
    exact_mod_cast h2
  have hexact : ∀ j : ℤ, 0 ≤ j →
      ((3 : ℚ) / 4 ≤ (present : ℚ) / ((total : ℚ) + j) ↔ 3 * (total + j) ≤ 4 * present) := by
    intro j hj
    have hpos : (0 : ℚ) < (total : ℚ) + j := by
      have : (0 : ℚ) ≤ (j : ℚ) := by exact_mod_cast hj
      linarith
    rw [le_div_iff₀ hpos]
    constructor
    · intro h1
      have : ((3 * (total + j) : ℤ) : ℚ) ≤ ((4 * present : ℤ) : ℚ) := by push_cast; linarith
      exact_mod_cast this
    · intro h1
      have : ((3 * (total + j) : ℤ) : ℚ) ≤ ((4 * present : ℤ) : ℚ) := by exact_mod_cast h1
      push_cast at this; linarith
  refine ⟨4 * present / 3 - total, skippable_eq_of_range present total ht hp hint, by omega,
    (hexact _ (by omega)).2 (by omega), ?_, ?_⟩
  · have e : (total : ℚ) + ((4 * present / 3 - total : ℤ) : ℚ) + 1
        = (total : ℚ) + ((4 * present / 3 - total + 1 : ℤ) : ℚ) := by push_cast; ring
    rw [e, ← not_le, hexact _ (by omega)]
    omega
  · intro j hj h1
    have := (hexact j hj).1 h1
    omega

/-- C1 (instance). At the exact boundary `present = 75`, `total = 100` the result is 0. -/
theorem calculateSkippableHours_largest_witness : calculateSkippableHours 75 100 = some 0 := by
  obtain ⟨k, hk, h0, h1, _, _⟩ :=
    calculateSkippableHours_largest 75 100 (by norm_num) (by norm_num) (by norm_num)
  have hk0 : k = 0 := by
    have hpos : (0 : ℚ) < ((100 : ℤ) : ℚ) + k := by
      have : (0 : ℚ) ≤ (k : ℚ) := by exact_mod_cast h0
      push_cast; linarith
    rw [le_div_iff₀ hpos] at h1
    have h2 : (k : ℚ) ≤ 0 := by push_cast at h1; linarith
    have h3 : k ≤ 0 := by exact_mod_cast h2
    omega
  rw [hk, hk0]

/-- C2 (counterexample). With `present = 3*2^50 + 1` and `total = 2^52 + 2` the
precondition holds (exactly and in `float64`), `calculateRequiredHours` returns 1, yet
`(present+1)/(total+1) < 0.75`. -/
theorem calculateRequiredHours_counterexample :
    (0 : ℤ) < 4503599627370498 ∧
    ((3377699720527873 : ℤ) : ℚ) / ((4503599627370498 : ℤ) : ℚ) * 100 < 75 ∧
    pctGe75 3377699720527873 4503599627370498 = false ∧
    calculateRequiredHours 3377699720527873 4503599627370498 = some 1 ∧
    (((3377699720527873 : ℤ) : ℚ) + 1) / (((4503599627370498 : ℤ) : ℚ) + 1) < 3 / 4 := by
  refine ⟨by norm_num, by norm_num, by decide, by decide, by norm_num⟩

/-- C2 (amended). For `total > 0`, `total - present < 2^50` and `present/total*100 < 75`,
`calculateRequiredHours` returns the smallest `k ≥ 0` with `(present+k)/(total+k) ≥ 0.75`
in exact rational arithmetic. -/
theorem calculateRequiredHours_smallest (present total : Int) (ht : 0 < total)
    (hp : total - present < 2 ^ 50) (h : (present : ℚ) / (total : ℚ) * 100 < 75) :
    ∃ k : ℤ, calculateRequiredHours present total = some k ∧ 0 ≤ k ∧
      (3 : ℚ) / 4 ≤ ((present : ℚ) + k) / ((total : ℚ) + k) ∧
      ∀ j : ℤ, 0 ≤ j → j < k → ((present : ℚ) + j) / ((total : ℚ) + j) < 3 / 4 := by
  have ht' : (0 : ℚ) < (total : ℚ) := by exact_mod_cast ht
  have hint : 4 * present < 3 * total := by
    have h1 : (present : ℚ) * 100 < 75 * total := by
      have e : (present : ℚ) / (total : ℚ) * 100 = (present : ℚ) * 100 / (total : ℚ) := by ring
      rw [e, div_lt_iff₀ ht'] at h
      exact h
    have h2 : ((4 * present : ℤ) : ℚ) < ((3 * total : ℤ) : ℚ) := by push_cast; linarith
    exact_mod_cast h2
  have hexact : ∀ j : ℤ, 0 ≤ j →
      ((3 : ℚ) / 4 ≤ ((present : ℚ) + j) / ((total : ℚ) + j) ↔
        3 * (total + j) ≤ 4 * (present + j)) := by
    intro j hj
    have hpos : (0 : ℚ) < (total : ℚ) + j := by
      have : (0 : ℚ) ≤ (j : ℚ) := by exact_mod_cast hj
      linarith
    rw [le_div_iff₀ hpos]
    constructor
    · intro h1
      have : ((3 * (total + j) : ℤ) : ℚ) ≤ ((4 * (present + j) : ℤ) : ℚ) := by
        push_cast; linarith
      exact_mod_cast this
    · intro h1
      have : ((3 * (total + j) : ℤ) : ℚ) ≤ ((4 * (present + j) : ℤ) : ℚ) := by exact_mod_cast h1
      push_cast at this; linarith
  refine ⟨3 * total - 4 * present, required_eq_of_range present total ht hp hint, by omega,
    (hexact _ (by omega)).2 (by omega), ?_⟩
  intro j hj hlt
  rw [← not_le, hexact j hj]
  omega

/-- C2 (instance). From `present = 1`, `total = 2` two attended classes are required. -/
theorem calculateRequiredHours_smallest_witness : calculateRequiredHours 1 2 = some 2 := by
  obtain ⟨k, hk, h0, h1, h2⟩ :=
    calculateRequiredHours_smallest 1 2 (by norm_num) (by norm_num) (by norm_num)
  have hk2 : k = 2 := by
    have hpos : (0 : ℚ) < ((2 : ℤ) : ℚ) + k := by
      have : (0 : ℚ) ≤ (k : ℚ) := by exact_mod_cast h0
      push_cast; linarith
    rw [le_div_iff₀ hpos] at h1
    have h3 : (2 : ℚ) ≤ (k : ℚ) := by push_cast at h1; linarith
    have h4 : 2 ≤ k := by exact_mod_cast h3
    by_contra hne
    have h5 := h2 2 (by norm_num) (by omega)
    norm_num at h5
  rw [hk, hk2]

/-- C3 (counterexample). `calculateRequiredHours(60, 100)` does not return 40. -/
theorem required_60_100_counterexample : calculateRequiredHours 60 100 ≠ some 40 := by
  rw [required_eq_of_range 60 100 (by norm_num) (by norm_num) (by norm_num)]
  decide

/-- C3 (amended). For `present = 60`, `total = 100` the overall percentage is the
`float64` 60.0 and `calculateRequiredHours(60, 100)` returns 60. -/
theorem required_60_100 :
    overallPercentage 60 100 = F64.ofInt 60 ∧ F64.toRat (overallPercentage 60 100) = 60 ∧
    calculateRequiredHours 60 100 = some 60 := by
  have h1 : overallPercentage 60 100 = F64.fin false 8444249301319680 (-47) := by decide
  refine ⟨by rw [h1]; decide, ?_,
    by rw [required_eq_of_range 60 100 (by norm_num) (by norm_num) (by norm_num)]; rfl⟩
  rw [h1]
  simp only [F64.toRat, F64.sval]
  norm_num

/-- C4. The guard cases return 0, the percentage being evaluated in `float64` as the
code does: `calculateSkippableHours` when `total = 0` or `present/total*100 < 75`,
`calculateRequiredHours` when `total = 0` or `present/total*100 >= 75`; both return 0
at `(0,0)`, `calculateRequiredHours(75,100) = 0`, and the two results are never both
positive. -/
theorem guard_cases (present total : Int) (hp : IsInt present) (ht : IsInt total) :
    ((total = 0 ∨ pctLt75 present total = true) → calculateSkippableHours present total = some 0) ∧
    ((total = 0 ∨ pctGe75 present total = true) → calculateRequiredHours present total = some 0) ∧
    calculateSkippableHours 0 0 = some 0 ∧ calculateRequiredHours 0 0 = some 0 ∧
    calculateRequiredHours 75 100 = some 0 ∧
    ¬ ∃ a b : ℤ, calculateSkippableHours present total = some a ∧
      calculateRequiredHours present total = some b ∧ 0 < a ∧ 0 < b := by
  refine ⟨?_, ?_, by decide, by decide, by decide, ?_⟩
  · rintro (h | h)
    · simp [calculateSkippableHours, h]
    · simp [calculateSkippableHours, h]
  · rintro (h | h)
    · simp [calculateRequiredHours, h]
    · simp [calculateRequiredHours, h]
  · rintro ⟨a, b, ha, hb, ha0, hb0⟩
    by_cases h0 : total = 0
    · simp [calculateSkippableHours, h0] at ha
      omega
    · have hlt := pctLt75_eq present total hp ht h0
      by_cases hge : pctGe75 present total = true
      · simp [calculateRequiredHours, h0, hge] at hb
        omega
      · have hge' : pctGe75 present total = false := by simpa using hge
        rw [hge'] at hlt
        simp [calculateSkippableHours, h0, hlt] at ha
        omega

/-- C4 (instance). At `present = 90`, `total = 100` the results are not both positive. -/
theorem guard_cases_witness :
    ¬ ∃ a b : ℤ, calculateSkippableHours 90 100 = some a ∧
      calculateRequiredHours 90 100 = some b ∧ 0 < a ∧ 0 < b :=
  (guard_cases 90 100 (by decide) (by decide)).2.2.2.2.2

/-- C5. For non-negative `present` and `total` (values of Go's `int`) both simulations
terminate and return a value: `calculateSkippableHours` after `k+1` iterations and
`calculateRequiredHours` after `k` iterations, `k` being the returned count, and the
divisor `tempTotal` of every iteration (the wrapped `total + j`) is non-zero. -/
theorem simulations_terminate (present total : Int) (hp0 : 0 ≤ present) (ht0 : 0 ≤ total)
    (hp : IsInt present) (ht : IsInt total) :
    (∃ k : Nat, calculateSkippableHours present total = some (k : ℤ) ∧
      ∀ j : Nat, 1 ≤ j → j ≤ k + 1 → wrapInt (total + j) ≠ 0) ∧
    (∃ k : Nat, calculateRequiredHours present total = some (wrapInt k) ∧
      ∀ j : Nat, 1 ≤ j → j ≤ k → wrapInt (total + j) ≠ 0) :=
  ⟨skippable_terminates present total hp0 ht0 hp ht,
   required_terminates present total hp0 ht0 hp ht⟩

/-- C5 (instance). With `present = 9 > total = 4` both simulations return a value. -/
theorem simulations_terminate_witness :
    (∃ k : Nat, calculateSkippableHours 9 4 = some (k : ℤ) ∧
      ∀ j : Nat, 1 ≤ j → j ≤ k + 1 → wrapInt (4 + j) ≠ 0) ∧
    (∃ k : Nat, calculateRequiredHours 9 4 = some (wrapInt k) ∧
      ∀ j : Nat, 1 ≤ j → j ≤ k → wrapInt (4 + j) ≠ 0) :=
  simulations_terminate 9 4 (by decide) (by decide) (by decide) (by decide)

/-! ### CryptoCodec -/

theorem byteOfNat_val (n : Nat) (h : n < 256) : ((Fin.ofNat n : Byte)).val = n := by
  simp [Fin.ofNat]; omega

theorem pkcs7Pad_eq (data : List Byte) (blockSize : Int) (h1 : 1 ≤ blockSize)
    (h2 : blockSize ≤ 255) :
    pkcs7Pad data blockSize = some (data ++
      List.replicate (blockSize - (data.length : Int) % blockSize).toNat
        (Fin.ofNat (blockSize - (data.length : Int) % blockSize).toNat)) := by
  have hm0 : 0 ≤ (data.length : Int) % blockSize := Int.emod_nonneg _ (by omega)
  have hm1 : (data.length : Int) % blockSize < blockSize := Int.emod_lt_of_pos _ (by omega)
  have ht : Int.tmod (data.length : Int) blockSize = (data.length : Int) % blockSize :=
    Int.tmod_eq_emod (by omega) (by omega)
  have hw : wrapInt (blockSize - (data.length : Int) % blockSize)
      = blockSize - (data.length : Int) % blockSize :=
    wrapInt_of_isInt ⟨by omega, by omega⟩
  have hb : (blockSize - (data.length : Int) % blockSize) % 256
      = blockSize - (data.length : Int) % blockSize := Int.emod_eq_of_lt (by omega) (by omega)
  unfold pkcs7Pad
  rw [if_neg (by omega)]
  simp only [ht, hw]
  rw [if_neg (by omega)]
  simp only [byteOfInt, hb]

theorem byte_xor_cancel (a b : Byte) : (a ^^^ b) ^^^ b = a := by
  apply Fin.ext
  show ((a.val ^^^ b.val) % 256 ^^^ b.val) % 256 = a.val
  have h1 : a.val ^^^ b.val < 2 ^ 8 :=
    Nat.xor_lt_two_pow (by have := a.isLt; omega) (by have := b.isLt; omega)
  have h2 : (a.val ^^^ b.val) % 256 = a.val ^^^ b.val := Nat.mod_eq_of_lt (by omega)
  rw [h2, Nat.xor_cancel_right, Nat.mod_eq_of_lt a.isLt]

theorem xorBytes_length (a b : List Byte) (h : a.length = b.length) :
    (xorBytes a b).length = a.length := by
  simp [xorBytes, h]

theorem xorBytes_cancel : ∀ (a b : List Byte), a.length = b.length →
    xorBytes (xorBytes a b) b = a
  | [], [], _ => rfl
  | [], _ :: _, h => by simp at h
  | _ :: _, [], h => by simp at h
  | x :: a, y :: b, h => by
    have ih := xorBytes_cancel a b (by simpa using h)
    simp only [xorBytes, List.zipWith_cons_cons] at ih ⊢
    rw [byte_xor_cancel, ih]

theorem cryptBlocksEnc_length (enc : List Byte → List Byte)
    (hlen : ∀ b, b.length = 16 → (enc b).length = 16) :
    ∀ (n : Nat) (prev src : List Byte), prev.length = 16 → src.length = 16 * n →
      (cryptBlocksEnc enc n prev src).length = 16 * n := by
  intro n
  induction n with
  | zero => intro prev src _ _; simp [cryptBlocksEnc]
  | succ n ih =>
    intro prev src hp hs
    have ht : (src.take 16).length = 16 := by simp [List.length_take]; omega
    have hc : (enc (xorBytes (src.take 16) prev)).length = 16 :=
      hlen _ (by rw [xorBytes_length _ _ (by rw [ht, hp]), ht])
    simp only [cryptBlocksEnc, List.length_append, hc]
    rw [ih _ _ hc (by simp [List.length_drop]; omega)]
    ring

theorem cryptBlocks_roundtrip (enc dec : List Byte → List Byte)
    (hlen : ∀ b, b.length = 16 → (enc b).length = 16)
    (hinv : ∀ b, b.length = 16 → dec (enc b) = b) :
    ∀ (n : Nat) (prev src : List Byte), prev.length = 16 → src.length = 16 * n →
      cryptBlocksDec dec n prev (cryptBlocksEnc enc n prev src) = src := by
  intro n
  induction n with
  | zero =>
    intro prev src _ hs
    have : src = [] := List.length_eq_zero.1 (by simpa using hs)
    simp [cryptBlocksDec, this]
  | succ n ih =>
    intro prev src hp hs
    have ht : (src.take 16).length = 16 := by simp [List.length_take]; omega
    have hx : (xorBytes (src.take 16) prev).length = 16 := by
      rw [xorBytes_length _ _ (by rw [ht, hp]), ht]
    have hc : (enc (xorBytes (src.take 16) prev)).length = 16 := hlen _ hx
    simp only [cryptBlocksEnc, cryptBlocksDec]
    have e1 : (enc (xorBytes (src.take 16) prev) ++
        cryptBlocksEnc enc n (enc (xorBytes (src.take 16) prev)) (src.drop 16)).take 16
        = enc (xorBytes (src.take 16) prev) := by
      exact List.take_left' hc
    have e2 : (enc (xorBytes (src.take 16) prev) ++
        cryptBlocksEnc enc n (enc (xorBytes (src.take 16) prev)) (src.drop 16)).drop 16
        = cryptBlocksEnc enc n (enc (xorBytes (src.take 16) prev)) (src.drop 16) := by
      exact List.drop_left' hc
    rw [e1, e2, hinv _ hx, xorBytes_cancel _ _ (by rw [ht, hp]),
      ih _ _ hc (by simp [List.length_drop]; omega), List.take_append_drop]

theorem b64_table : ∀ n : Fin 64, b64Val (b64Char n.val) = n.val ∧ b64Char n.val ≠ '=' := by
  decide

theorem b64Val_b64Char (n : Nat) (h : n < 64) : b64Val (b64Char n) = n :=
  (b64_table ⟨n, h⟩).1

theorem b64Char_ne_pad (n : Nat) (h : n < 64) : b64Char n ≠ '=' :=
  (b64_table ⟨n, h⟩).2

theorem byteOfNat_eq (n : Nat) (a : Byte) (h : n = a.val) : (Fin.ofNat n : Byte) = a :=
  Fin.ext (by rw [byteOfNat_val _ (by have := a.isLt; omega)]; exact h)

theorem b64_roundtrip : ∀ l : List Byte, b64DecodeList (b64EncodeList l) = some l
  | [] => rfl
  | [a] => by
    have ha := a.isLt
    have h0 : a.val / 4 < 64 := by omega
    have h1 : a.val % 4 * 16 < 64 := by omega
    simp [b64EncodeList, b64DecodeList, b64Val_b64Char _ h0, b64Val_b64Char _ h1, h0, h1]
    exact byteOfNat_eq _ _ (by omega)
  | [a, b] => by
    have ha := a.isLt
    have hb := b.isLt
    have h0 : a.val / 4 < 64 := by omega
    have h1 : a.val % 4 * 16 + b.val / 16 < 64 := by omega
    have h2 : b.val % 16 * 4 < 64 := by omega
    simp [b64EncodeList, b64DecodeList, b64Val_b64Char _ h0, b64Val_b64Char _ h1,
      b64Val_b64Char _ h2, b64Char_ne_pad _ h2, h0, h1, h2]
    exact ⟨byteOfNat_eq _ _ (by omega), byteOfNat_eq _ _ (by omega)⟩
  | a :: b :: c :: rest => by
    have ih := b64_roundtrip rest
    have ha := a.isLt
    have hb := b.isLt
    have hc := c.isLt
    have h0 : a.val / 4 < 64 := by omega
    have h1 : a.val % 4 * 16 + b.val / 16 < 64 := by omega
    have h2 : b.val % 16 * 4 + c.val / 64 < 64 := by omega
    have h3 : c.val % 64 < 64 := by omega
    simp [b64EncodeList, b64DecodeList, b64Val_b64Char _ h0, b64Val_b64Char _ h1,
      b64Val_b64Char _ h2, b64Val_b64Char _ h3, b64Char_ne_pad _ h3, h0, h1, h2, h3, ih]
    exact ⟨byteOfNat_eq _ _ (by omega), byteOfNat_eq _ _ (by omega),
      byteOfNat_eq _ _ (by omega)⟩

theorem pkcs7Unpad_append (data : List Byte) (b : Byte) (h : 1 ≤ b.val) :
    pkcs7Unpad (data ++ List.replicate b.val b) = some data := by
  obtain ⟨k, hk⟩ : ∃ k, b.val = k + 1 := ⟨b.val - 1, by omega⟩
  have hlast : (data ++ List.replicate b.val b).getLast? = some b := by
    rw [hk, List.replicate_succ', ← List.append_assoc, List.getLast?_concat]
  have hl : (data ++ List.replicate b.val b).length - b.val = data.length := by simp
  unfold pkcs7Unpad
  rw [hlast]
  simp only [hl, List.drop_left, List.take_left]
  rw [if_neg (by simp; omega)]
  simp

/-- C6. For `1 ≤ blockSize ≤ 255`, `pkcs7Pad(data, blockSize)` is `data` followed by `n`
bytes of value `n`, where `n = blockSize - len(data) mod blockSize`; `1 ≤ n ≤ blockSize`,
the length of the result is a positive multiple of `blockSize`, and a full block is added
when `len(data)` is already a multiple of `blockSize`. -/
theorem pkcs7Pad_spec (data : List Byte) (blockSize : Int) (h1 : 1 ≤ blockSize)
    (h2 : blockSize ≤ 255) :
    ∃ (n : Nat) (out : List Byte),
      (n : Int) = blockSize - (data.length : Int) % blockSize ∧
      pkcs7Pad data blockSize = some out ∧
      out.map Fin.val = data.map Fin.val ++ List.replicate n n ∧
      1 ≤ n ∧ (n : Int) ≤ blockSize ∧
      0 < out.length ∧ blockSize ∣ (out.length : Int) ∧
      ((data.length : Int) % blockSize = 0 → (n : Int) = blockSize) := by
  have hm0 : 0 ≤ (data.length : Int) % blockSize := Int.emod_nonneg _ (by omega)
  have hm1 : (data.length : Int) % blockSize < blockSize := Int.emod_lt_of_pos _ (by omega)
  have hn : (((blockSize - (data.length : Int) % blockSize).toNat : Nat) : Int)
      = blockSize - (data.length : Int) % blockSize := Int.toNat_of_nonneg (by omega)
  refine ⟨(blockSize - (data.length : Int) % blockSize).toNat, _, hn,
    pkcs7Pad_eq data blockSize h1 h2, ?_, by omega, by omega, ?_, ?_, ?_⟩
  · rw [List.map_append, List.map_replicate, byteOfNat_val _ (by omega)]
  · simp only [List.length_append, List.length_replicate]; omega
  · simp only [List.length_append, List.length_replicate]
    push_cast
    rw [hn]
    have : (data.length : Int) + (blockSize - (data.length : Int) % blockSize)
        = blockSize * ((data.length : Int) / blockSize + 1) := by
      have := Int.emod_add_ediv (data.length : Int) blockSize
      linarith
    rw [this]
    exact dvd_mul_right _ _
  · intro h
    rw [hn, h]; ring

/-- C6 (instance). A 16-byte input and block size 16: a full block of sixteen bytes of
value 16 is appended. -/
theorem pkcs7Pad_spec_witness :
    ∃ (n : Nat) (out : List Byte),
      (n : Int) = (16 : Int) - ((List.replicate 16 (7 : Byte)).length : Int) % 16 ∧
      pkcs7Pad (List.replicate 16 7) 16 = some out ∧
      out.map Fin.val = (List.replicate 16 (7 : Byte)).map Fin.val ++ List.replicate n n ∧
      1 ≤ n ∧ (n : Int) ≤ 16 ∧
      0 < out.length ∧ (16 : Int) ∣ (out.length : Int) ∧
      (((List.replicate 16 (7 : Byte)).length : Int) % 16 = 0 → (n : Int) = 16) :=
  pkcs7Pad_spec (List.replicate 16 7) 16 (by decide) (by decide)

/-- C7. For every plaintext, `encryptPasswordAES` returns a value (no error, no panic),
and base64-decoding it, CBC-decrypting with the same key and IV and removing the PKCS#7
padding gives back the plaintext, for any block cipher that maps 16-byte blocks to
16-byte blocks and has an inverse on them. -/
theorem encryptPasswordAES_roundtrip (aes aesInv : List Byte → List Byte → List Byte)
    (hlen : ∀ b, b.length = 16 → (aes aesKey b).length = 16)
    (hinv : ∀ b, b.length = 16 → aesInv aesKey (aes aesKey b) = b)
    (plainText : List Byte) :
    ∃ s, encryptPasswordAES aes plainText = Outcome.value s ∧
      decryptPassword aesInv s = some plainText := by
  obtain ⟨n, out, hn, hpad, hmap, hn1, hn16, _, hdvd, _⟩ :=
    pkcs7Pad_spec plainText 16 (by norm_num) (by norm_num)
  have hout := pkcs7Pad_eq plainText 16 (by norm_num) (by norm_num)
  have hk : aesKey.length = 16 := by decide
  have hlen16 : out.length % 16 = 0 := by omega
  have hq : out.length = 16 * (out.length / 16) := by omega
  have henc : cbcEncrypt (aes aesKey) aesKey out
      = some (cryptBlocksEnc (aes aesKey) (out.length / 16) aesKey out) := by
    simp [cbcEncrypt, hk, hlen16]
  have hclen := cryptBlocksEnc_length (aes aesKey) hlen (out.length / 16) aesKey out hk hq
  have hdec : cbcDecrypt (aesInv aesKey) aesKey
      (cryptBlocksEnc (aes aesKey) (out.length / 16) aesKey out) = some out := by
    have h16 : (cryptBlocksEnc (aes aesKey) (out.length / 16) aesKey out).length % 16 = 0 := by
      omega
    have hdiv : (cryptBlocksEnc (aes aesKey) (out.length / 16) aesKey out).length / 16
        = out.length / 16 := by omega
    simp only [cbcDecrypt, hk, h16, hdiv, ne_eq, not_true_eq_false, if_false]
    rw [cryptBlocks_roundtrip (aes aesKey) (aesInv aesKey) hlen hinv _ _ _ hk hq]
  have hunpad : pkcs7Unpad out = some plainText := by
    rw [hpad] at hout
    have ho := Option.some.inj hout
    have hnn : (16 - (plainText.length : Int) % 16).toNat = n := by omega
    rw [hnn] at ho
    have hv : ((Fin.ofNat n : Byte)).val = n := byteOfNat_val n (by omega)
    rw [ho]
    have := pkcs7Unpad_append plainText (Fin.ofNat n) (by omega)
    rwa [hv] at this
  refine ⟨base64Encode (cryptBlocksEnc (aes aesKey) (out.length / 16) aesKey out), ?_, ?_⟩
  · simp [encryptPasswordAES, hpad, hk, henc]
  · simp [decryptPassword, base64Decode, base64Encode, b64_roundtrip, hdec, hunpad]

/-- C7 (instance). The round trip of the plaintext `secret` under the identity cipher. -/
theorem encryptPasswordAES_roundtrip_witness :
    ∃ s, encryptPasswordAES (fun _ b => b) (asciiBytes "secret") = Outcome.value s ∧
      decryptPassword (fun _ b => b) s = some (asciiBytes "secret") :=
  encryptPasswordAES_roundtrip (fun _ b => b) (fun _ b => b) (fun _ h => h) (fun _ _ => rfl)
    (asciiBytes "secret")

/-! ### ReportScraper -/

theorem fieldsGo_spaces : ∀ (ws cur : List Char), (∀ c ∈ ws, isSpace c = true) →
    fieldsGo ws cur = if cur = [] then [] else [cur]
  | [], cur, _ => rfl
  | c :: ws, cur, h => by
    have hc : isSpace c = true := h c (List.mem_cons_self _ _)
    have ih := fieldsGo_spaces ws [] (fun x hx => h x (List.mem_cons_of_mem _ hx))
    simp only [fieldsGo, hc, if_true, ih]

theorem fieldsGo_append_spaces (ws : List Char) (h : ∀ c ∈ ws, isSpace c = true) :
    ∀ (l cur : List Char), fieldsGo (l ++ ws) cur = fieldsGo l cur
  | [], cur => by
    rw [List.nil_append, fieldsGo_spaces ws cur h]; rfl
  | c :: l, cur => by
    have ih := fieldsGo_append_spaces ws h l
    show fieldsGo (c :: (l ++ ws)) cur = _
    simp only [fieldsGo, ih]

theorem fieldsGo_dropWhile : ∀ l : List Char,
    fieldsGo (l.dropWhile isSpace) [] = fieldsGo l []
  | [] => rfl
  | c :: l => by
    by_cases hc : isSpace c = true
    · simp only [List.dropWhile, hc, fieldsGo, if_true]
      exact fieldsGo_dropWhile l
    · have hc' : isSpace c = false := by simpa using hc
      simp only [List.dropWhile, hc']

theorem rdropWhile_split (p : Char → Bool) (l : List Char) :
    ∃ ws, (∀ c ∈ ws, p c = true) ∧ l = l.rdropWhile p ++ ws := by
  induction l using List.reverseRecOn with
  | nil => exact ⟨[], by simp, by simp [List.rdropWhile]⟩
  | append_singleton l x ih =>
    rw [List.rdropWhile_concat]
    by_cases hx : p x = true
    · obtain ⟨ws, hws, hl⟩ := ih
      refine ⟨ws ++ [x], ?_, ?_⟩
      · intro c hc
        rcases List.mem_append.1 hc with h | h
        · exact hws c h
        · rw [List.mem_singleton.1 h]; exact hx
      · rw [if_pos hx, ← List.append_assoc, ← hl]
    · exact ⟨[], by simp, by rw [if_neg hx]; simp⟩

theorem fields_trimSpace (s : String) : fields (trimSpace s) = fields s := by
  obtain ⟨ws, hws, hl⟩ := rdropWhile_split isSpace (s.data.dropWhile isSpace)
  have h1 : fieldsGo ((s.data.dropWhile isSpace).rdropWhile isSpace) []
      = fieldsGo (s.data.dropWhile isSpace) [] := by
    conv_rhs => rw [hl]
    exact (fieldsGo_append_spaces ws hws _ _).symm
  simp only [fields, trimSpace, h1, fieldsGo_dropWhile]

theorem scrapeRows_totals (sscanf : String → Int × Int) (todayIndex : Int) :
    ∀ (rows : List (List String)) (s s' : ScrapeState),
      s.totalPresent = s'.totalPresent → s.totalClasses = s'.totalClasses →
      (scrapeRows sscanf todayIndex s rows).totalPresent
        = (scrapeRows sscanf todayIndex s' rows).totalPresent ∧
      (scrapeRows sscanf todayIndex s rows).totalClasses
        = (scrapeRows sscanf todayIndex s' rows).totalClasses
  | [], s, s', h1, h2 => ⟨h1, h2⟩
  | r :: rows, s, s', h1, h2 => by
    have := scrapeRows_totals sscanf todayIndex rows (processRow sscanf todayIndex s r)
      (processRow sscanf todayIndex s' r)
      (by unfold processRow; split <;> simp [h1])
      (by unfold processRow; split <;> simp [h2])
    simpa [scrapeRows] using this

/-- The line of `subjectAttendance` produced by a row. -/
theorem processRow_subject (sscanf : String → Int × Int) (todayIndex : Int) (st : ScrapeState)
    (cells : List String) (h : 2 ≤ cells.length) :
    (processRow sscanf todayIndex st cells).subjectAttendance = st.subjectAttendance ++
      [subjectLine (trimSpace (cellText cells 1))
        (trimSpace (cellText cells ((cells.length : Int) - 2)))
        (trimSpace (cellText cells ((cells.length : Int) - 1)))] := by
  unfold processRow
  rw [if_neg (by omega)]

theorem processRow_skip (sscanf : String → Int × Int) (todayIndex : Int) (st : ScrapeState)
    (cells : List String) (h : cells.length < 2) :
    processRow sscanf todayIndex st cells = st := by
  unfold processRow
  rw [if_pos h]

theorem scrapeRows_subject (sscanf : String → Int × Int) (todayIndex : Int) :
    ∀ (rows : List (List String)) (st : ScrapeState),
      (scrapeRows sscanf todayIndex st rows).subjectAttendance
        = st.subjectAttendance ++ subjectLines rows
  | [], st => by simp [scrapeRows, subjectLines]
  | r :: rows, st => by
    have ih := scrapeRows_subject sscanf todayIndex rows (processRow sscanf todayIndex st r)
    simp only [scrapeRows, List.foldl_cons] at ih ⊢
    rw [ih]
    by_cases h : 2 ≤ r.length
    · rw [processRow_subject sscanf todayIndex st r h]
      simp [subjectLines, h]
    · rw [processRow_skip sscanf todayIndex st r (by omega)]
      simp [subjectLines, h]

theorem processRow_isInt (sscanf : String → Int × Int) (todayIndex : Int) (st : ScrapeState)
    (cells : List String) (hp : IsInt st.totalPresent) (hc : IsInt st.totalClasses) :
    IsInt (processRow sscanf todayIndex st cells).totalPresent ∧
    IsInt (processRow sscanf todayIndex st cells).totalClasses := by
  unfold processRow
  split
  · exact ⟨hp, hc⟩
  · exact ⟨wrapInt_isInt _, wrapInt_isInt _⟩

theorem scrapeRows_isInt (sscanf : String → Int × Int) (todayIndex : Int) :
    ∀ (rows : List (List String)) (st : ScrapeState),
      IsInt st.totalPresent → IsInt st.totalClasses →
      IsInt (scrapeRows sscanf todayIndex st rows).totalPresent ∧
      IsInt (scrapeRows sscanf todayIndex st rows).totalClasses
  | [], _, hp, hc => ⟨hp, hc⟩
  | r :: rows, st, hp, hc => by
    obtain ⟨h1, h2⟩ := processRow_isInt sscanf todayIndex st r hp hc
    exact scrapeRows_isInt sscanf todayIndex rows _ h1 h2

theorem processRow_no_slash (sscanf : String → Int × Int) (todayIndex : Int) (st : ScrapeState)
    (cells : List String) (h2 : 2 ≤ cells.length)
    (hs : contains (trimSpace (cellText cells ((cells.length : Int) - 2))) "/" = false)
    (hp : IsInt st.totalPresent) (hc : IsInt st.totalClasses) :
    (processRow sscanf todayIndex st cells).totalPresent = st.totalPresent ∧
    (processRow sscanf todayIndex st cells).totalClasses = st.totalClasses := by
  unfold processRow
  rw [if_neg (by omega)]
  simp only [hs, Bool.false_eq_true, if_false, add_zero]
  exact ⟨wrapInt_of_isInt hp, wrapInt_of_isInt hc⟩

/-- C9. A data row with at least two bordered cells whose attendance text has no `/`
leaves `totalPresent` and `totalClasses` unchanged and appends exactly one line to
`subjectAttendance`; in a whole table the totals are those of the table without the row,
and the line stands at the row's place among the lines of the other rows. -/
theorem row_without_slash (sscanf : String → Int × Int) (todayIndex : Int) (st : ScrapeState)
    (before after : List (List String)) (cells : List String) (h2 : 2 ≤ cells.length)
    (hs : contains (trimSpace (cellText cells ((cells.length : Int) - 2))) "/" = false)
    (hp : IsInt st.totalPresent) (hc : IsInt st.totalClasses) :
    (processRow sscanf todayIndex st cells).totalPresent = st.totalPresent ∧
    (processRow sscanf todayIndex st cells).totalClasses = st.totalClasses ∧
    (processRow sscanf todayIndex st cells).subjectAttendance = st.subjectAttendance ++
      [subjectLine (trimSpace (cellText cells 1))
        (trimSpace (cellText cells ((cells.length : Int) - 2)))
        (trimSpace (cellText cells ((cells.length : Int) - 1)))] ∧
    (scrapeRows sscanf todayIndex st (before ++ cells :: after)).totalPresent
      = (scrapeRows sscanf todayIndex st (before ++ after)).totalPresent ∧
    (scrapeRows sscanf todayIndex st (before ++ cells :: after)).totalClasses
      = (scrapeRows sscanf todayIndex st (before ++ after)).totalClasses ∧
    (scrapeRows sscanf todayIndex st (before ++ cells :: after)).subjectAttendance
      = st.subjectAttendance ++ subjectLines before ++
        [subjectLine (trimSpace (cellText cells 1))
          (trimSpace (cellText cells ((cells.length : Int) - 2)))
          (trimSpace (cellText cells ((cells.length : Int) - 1)))] ++ subjectLines after := by
  obtain ⟨a1, a2⟩ := processRow_no_slash sscanf todayIndex st cells h2 hs hp hc
  obtain ⟨i1, i2⟩ := scrapeRows_isInt sscanf todayIndex before st hp hc
  obtain ⟨b1, b2⟩ := processRow_no_slash sscanf todayIndex
    (scrapeRows sscanf todayIndex st before) cells h2 hs i1 i2
  have ht := scrapeRows_totals sscanf todayIndex after
    (processRow sscanf todayIndex (scrapeRows sscanf todayIndex st before) cells)
    (scrapeRows sscanf todayIndex st before) b1 b2
  have e1 : scrapeRows sscanf todayIndex st (before ++ cells :: after)
      = scrapeRows sscanf todayIndex
        (processRow sscanf todayIndex (scrapeRows sscanf todayIndex st before) cells) after := by
    simp [scrapeRows, List.foldl_append]
  have e2 : scrapeRows sscanf todayIndex st (before ++ after)
      = scrapeRows sscanf todayIndex (scrapeRows sscanf todayIndex st before) after := by
    simp [scrapeRows, List.foldl_append]
  refine ⟨a1, a2, processRow_subject sscanf todayIndex st cells h2, ?_, ?_, ?_⟩
  · rw [e1, e2]; exact ht.1
  · rw [e1, e2]; exact ht.2
  · rw [scrapeRows_subject]
    simp [subjectLines, List.filter_append, h2]

/-- C9 (instance). A row whose attendance text is `-`. -/
theorem row_without_slash_witness :
    (processRow (fun _ => (7, 9)) 2 ⟨3, 4, [], []⟩ ["1", "Maths", "P", "-", "0.00"]).totalPresent
      = 3 ∧
    (processRow (fun _ => (7, 9)) 2 ⟨3, 4, [], []⟩ ["1", "Maths", "P", "-", "0.00"]).totalClasses
      = 4 :=
  have h := row_without_slash (fun _ => (7, 9)) 2 ⟨3, 4, [], []⟩ [] []
    ["1", "Maths", "P", "-", "0.00"] (by decide) (by decide) (by decide) (by decide)
  ⟨h.1, h.2.1⟩

theorem fieldsGo_eq_splitOnP : ∀ (l cur : List Char),
    fieldsGo l cur
      = ((l.splitOnP isSpace).modifyHead (fun t => cur ++ t)).filter (fun t => t ≠ [])
  | [], cur => by
    by_cases h : cur = [] <;> simp [fieldsGo, List.splitOnP_nil, List.modifyHead, h]
  | c :: cs, cur => by
    have ih1 := fieldsGo_eq_splitOnP cs []
    have ih2 := fieldsGo_eq_splitOnP cs (cur ++ [c])
    have hne := List.splitOnP_ne_nil isSpace cs
    rw [List.splitOnP_cons]
    cases hs : cs.splitOnP isSpace with
    | nil => exact absurd hs hne
    | cons t ts =>
      rw [hs] at ih1 ih2
      by_cases hc : isSpace c = true
      · by_cases h : cur = [] <;>
          simp [fieldsGo, hc, h, ih1, List.modifyHead, List.filter_cons]
      · simp [fieldsGo, hc, ih2, List.modifyHead, List.filter_cons]

theorem todayStatuses_eq_split (s : String) :
    todayStatuses s
      = ((s.data.splitOnP isSpace).map String.mk).filter (fun t => t = "P" ∨ t = "A") := by
  have h := fieldsGo_eq_splitOnP s.data []
  have hne := List.splitOnP_ne_nil isSpace s.data
  cases hs : s.data.splitOnP isSpace with
  | nil => exact absurd hs hne
  | cons t ts =>
    rw [hs] at h
    simp only [List.modifyHead, List.nil_append] at h
    simp only [todayStatuses, fields, h, List.filter_map, List.filter_filter]
    congr 1
    apply List.filter_congr
    intro x _
    by_cases hx : x = []
    · subst hx
      simp only [Function.comp, ne_eq, not_true_eq_false, decide_False, Bool.and_false]
      decide
    · simp [Function.comp, hx]

theorem isSpace_iff (c : Char) :
    isSpace c = true ↔ ((9 ≤ c.toNat ∧ c.toNat ≤ 13) ∨ c.toNat = 32 ∨ c.toNat = 0x85 ∨
      c.toNat = 0xA0 ∨ c.toNat = 0x1680 ∨ (0x2000 ≤ c.toNat ∧ c.toNat ≤ 0x200A) ∨
      c.toNat = 0x2028 ∨ c.toNat = 0x2029 ∨ c.toNat = 0x202F ∨ c.toNat = 0x205F ∨
      c.toNat = 0x3000) := by
  simp only [isSpace, Bool.or_eq_true, Bool.and_eq_true, decide_eq_true_eq]
  omega

/-- C10 (counterexample). A row with the single bordered cell `P` and today's index 0:
the index is valid (`0 != -1`, `0 < 1`) and the tokens of the cell that equal `P` or `A`
are `[P]`, yet the row is skipped for having fewer than two cells and contributes no
entry to `todaysAttendance`. -/
theorem today_status_counterexample :
    ((0 : Int) ≠ -1 ∧ (0 : Int) < ((["P"] : List String).length : Int)) ∧
    (((cellText ["P"] 0).data.splitOnP isSpace).map String.mk).filter
      (fun t => t = "P" ∨ t = "A") = ["P"] ∧
    (processRow (fun _ => (0, 0)) 0 ⟨0, 0, [], []⟩ ["P"]).todaysAttendance = [] := by
  decide

/-- C10 (amended). For a data row with at least two bordered cells, today's status is the
list, in order, of the pieces of today's cell text between whitespace characters (the
Unicode white space U+0009 to U+000D, U+0020, U+0085, U+00A0, U+1680, U+2000 to U+200A,
U+2028, U+2029, U+202F, U+205F, U+3000) that equal `P` or `A`. When today's index is
valid the row appends the entry `subject: statuses` (statuses joined by single spaces) to
`todaysAttendance` if that list is non-empty and nothing if it is empty; when the index
is not valid it appends nothing. -/
theorem today_status (sscanf : String → Int × Int) (todayIndex : Int) (st : ScrapeState)
    (cells : List String) (h2 : 2 ≤ cells.length) :
    (∀ c : Char, isSpace c = true ↔ ((9 ≤ c.toNat ∧ c.toNat ≤ 13) ∨ c.toNat = 32 ∨
      c.toNat = 0x85 ∨ c.toNat = 0xA0 ∨ c.toNat = 0x1680 ∨
      (0x2000 ≤ c.toNat ∧ c.toNat ≤ 0x200A) ∨ c.toNat = 0x2028 ∨ c.toNat = 0x2029 ∨
      c.toNat = 0x202F ∨ c.toNat = 0x205F ∨ c.toNat = 0x3000)) ∧
    ((todayIndex ≠ -1 ∧ todayIndex < (cells.length : Int)) →
      ((((cellText cells todayIndex).data.splitOnP isSpace).map String.mk).filter
          (fun t => t = "P" ∨ t = "A") ≠ [] →
        (processRow sscanf todayIndex st cells).todaysAttendance = st.todaysAttendance ++
          [trimSpace (cellText cells 1) ++ ": " ++ " ".intercalate
            ((((cellText cells todayIndex).data.splitOnP isSpace).map String.mk).filter
              (fun t => t = "P" ∨ t = "A"))]) ∧
      ((((cellText cells todayIndex).data.splitOnP isSpace).map String.mk).filter
          (fun t => t = "P" ∨ t = "A") = [] →
        (processRow sscanf todayIndex st cells).todaysAttendance = st.todaysAttendance)) ∧
    (¬ (todayIndex ≠ -1 ∧ todayIndex < (cells.length : Int)) →
      (processRow sscanf todayIndex st cells).todaysAttendance = st.todaysAttendance) := by
  have hf : todayStatuses (trimSpace (cellText cells todayIndex))
      = (((cellText cells todayIndex).data.splitOnP isSpace).map String.mk).filter
          (fun t => t = "P" ∨ t = "A") := by
    rw [← todayStatuses_eq_split]
    simp only [todayStatuses, fields_trimSpace]
  unfold processRow
  rw [if_neg (by omega)]
  simp only [hf]
  refine ⟨isSpace_iff, fun hv => ⟨fun hne => ?_, fun he => ?_⟩, fun hv => ?_⟩
  · rw [if_pos hv, if_pos (List.length_pos.2 hne)]
  · rw [if_pos hv, he]; simp
  · rw [if_neg hv]

/-- C10 (instance). Today's cell of the subject `Maths` holds `P`, `x`, `A` separated by a
tab, a line feed and a no-break space: the entry is `Maths: P A`. -/
theorem today_status_witness :
    (processRow (fun _ => (3, 4)) 2 ⟨0, 0, [], []⟩
      ["1", " Maths ", String.mk [Char.ofNat 9, 'P', Char.ofNat 10, 'x', Char.ofNat 160, 'A'],
        "3/4", "75.00"]).todaysAttendance = ["Maths: P A"] := by
  have h := (today_status (fun _ => (3, 4)) 2 ⟨0, 0, [], []⟩
    ["1", " Maths ", String.mk [Char.ofNat 9, 'P', Char.ofNat 10, 'x', Char.ofNat 160, 'A'],
      "3/4", "75.00"] (by decide)).2.1 (by decide)
  have h1 := h.1 (by decide)
  rw [h1]
  decide

/-! ### AttendanceService -/

theorem encryptPasswordAES_ne_error (aes : List Byte → List Byte → List Byte)
    (plainText : List Byte) (err : String) :
    encryptPasswordAES aes plainText ≠ Outcome.error err := by
  have hk : aesKey.length = 16 := by decide
  unfold encryptPasswordAES
  cases pkcs7Pad plainText 16 with
  | none => simp
  | some out =>
    simp only [hk]
    cases cbcEncrypt (aes aesKey) aesKey out <;> simp

/-- C8. A returned response is either an error with every other field at its zero value
or, the error texts of failed calls being non-empty, a summary for the supplied username:
if `Error` is non-empty then `StudentID` is empty, the counts and the percentage are 0
and both sequences are empty; if `Error` is empty then `StudentID` is the username. -/
theorem fetch_error_or_summary (env : Env) (username : String) (password : List Byte)
    (r : AttendanceResponse) (h : FetchAttendanceAPI env username password = some r) :
    (r.Error ≠ "" → r.StudentID = "" ∧ r.TotalPresent = 0 ∧ r.TotalClasses = 0 ∧
      r.SkippableHours = 0 ∧ r.RequiredHours = 0 ∧
      r.OverallPercentage = F64.fin false 0 (-1074) ∧
      r.TodaysAttendance = [] ∧ r.SubjectAttendance = []) ∧
    (env.ErrorsNonEmpty → r.Error = "" → r.StudentID = username) := by
  have herr : ∀ msg : String, r = errorResponse msg →
      (r.Error ≠ "" → r.StudentID = "" ∧ r.TotalPresent = 0 ∧ r.TotalClasses = 0 ∧
        r.SkippableHours = 0 ∧ r.RequiredHours = 0 ∧
        r.OverallPercentage = F64.fin false 0 (-1074) ∧
        r.TodaysAttendance = [] ∧ r.SubjectAttendance = []) := by
    intro msg hr _
    subst hr
    simp [errorResponse]
  have hmsg : ∀ msg : String, r = errorResponse msg → msg ≠ "" → r.Error = "" →
      r.StudentID = username := by
    intro msg hr hne he
    subst hr
    exact absurd he hne
  unfold FetchAttendanceAPI at h
  split at h
  · -- the login page could not be fetched
    rename_i err _
    have hr := (Option.some.inj h).symm
    refine ⟨herr _ hr, fun _ => hmsg _ hr ?_⟩
    intro hc
    have h0 : ("failed to get login page: " ++ err).length = 0 := by rw [hc]; rfl
    have h26 : "failed to get login page: ".length = 26 := by decide
    rw [String.length_append, h26] at h0
    omega
  · split at h
    · rename_i body _ err hx
      have hr := (Option.some.inj h).symm
      refine ⟨herr _ hr, fun hne => hmsg _ hr ?_⟩
      unfold extractHiddenFields at hx
      split at hx
      · rename_i e he
        cases hx
        exact hne.1 _ _ he
      · split at hx
        · cases hx
        · cases hx
          decide
    · split at h
      · cases h
      · rename_i err hx
        have hr := (Option.some.inj h).symm
        exact absurd hx (encryptPasswordAES_ne_error _ _ _)
      · split at h
        · rename_i err hx
          have hr := (Option.some.inj h).symm
          exact ⟨herr _ hr, fun hne => hmsg _ hr (hne.2.1 _ _ hx)⟩
        · split at h
          · have hr := (Option.some.inj h).symm
            exact ⟨herr _ hr, fun _ => hmsg _ hr (by decide)⟩
          · split at h
            · rename_i err hx
              have hr := (Option.some.inj h).symm
              exact ⟨herr _ hr, fun hne => hmsg _ hr (hne.2.2.1 _ hx)⟩
            · rename_i err hx
              have hr := (Option.some.inj h).symm
              exact ⟨herr _ hr, fun hne => hmsg _ hr (hne.2.2.2 _ hx)⟩
            · rename_i doc _
              dsimp only at h
              cases hsk : calculateSkippableHours
                (scrapeRows env.sscanf (findTodayIndex env.today (doc.headerCells.map trimSpace) 0)
                  ⟨0, 0, [], []⟩ doc.rows).totalPresent
                (scrapeRows env.sscanf (findTodayIndex env.today (doc.headerCells.map trimSpace) 0)
                  ⟨0, 0, [], []⟩ doc.rows).totalClasses with
              | none => rw [hsk] at h; cases h
              | some sk =>
                cases hrq : calculateRequiredHours
                  (scrapeRows env.sscanf
                    (findTodayIndex env.today (doc.headerCells.map trimSpace) 0)
                    ⟨0, 0, [], []⟩ doc.rows).totalPresent
                  (scrapeRows env.sscanf
                    (findTodayIndex env.today (doc.headerCells.map trimSpace) 0)
                    ⟨0, 0, [], []⟩ doc.rows).totalClasses with
                | none => rw [hsk, hrq] at h; cases h
                | some rq =>
                  rw [hsk, hrq] at h
                  have hr := (Option.some.inj h).symm
                  subst hr
                  exact ⟨fun hc => absurd rfl hc, fun _ _ => rfl⟩

/-- C8 (instance). In `exampleEnv` every call succeeds and the response is the summary of
the user `21A`. -/
theorem fetch_error_or_summary_witness :
    FetchAttendanceAPI exampleEnv "21A" (asciiBytes "secret") = some exampleResponse ∧
    exampleResponse.Error = "" ∧ exampleResponse.StudentID = "21A" :=
  (fun (h : FetchAttendanceAPI exampleEnv "21A" (asciiBytes "secret") = some exampleResponse) =>
    ⟨h, rfl, (fetch_error_or_summary exampleEnv "21A" (asciiBytes "secret") exampleResponse h).2
      ⟨fun _ _ he => (by cases he), fun _ _ he => (by cases he), fun _ he => (by cases he),
        fun _ he => (by cases he)⟩ rfl⟩) (by decide)
